import Mathlib

/-!
# Verification of the maze-gen engine

A shallow embedding of the maze generation/analysis/solving engine:

* `Random` — the mulberry32 seeded PRNG (`scripts/random.js`).
* `Maze`, `addLink`, `freshMaze` — the grid & link model
  (`scripts/generate-maze.js`).
* `analyzeMaze` — the union-find connectivity analyzer
  (`scripts/analyze-maze.js`, `analyzeMaze`).
* `solveMaze` — the breadth-first solver (`scripts/analyze-maze.js`,
  `solveMaze`).
* `generateRandomMaze` — the randomized spanning generator.
* `generateLongMaze` — the seed-packet optimizer.

Modelling conventions:

* A JS coordinate string `"x,y"` is modelled as the pair `(x, y) : ℕ × ℕ`;
  a link key `"A-B"` as the ordered pair `(A, B)`.  JS objects keyed by such
  strings keep insertion order, so `cells` and `links` are insertion-ordered
  lists (object assignment of an existing key keeps its position).
* JS numbers are exact integers here: every arithmetic operation performed by
  the source on values in play is exact in IEEE doubles in the ranges the
  program reaches (all 32-bit patterns, sums below `2^53`), so `ℕ` with
  explicit `% 2 ^ 32` at the points where the source truncates (`| 0`,
  `Math.imul`, `>>> 0`) is a faithful model of the bit patterns.
* `Math.random()` (the ambient, non-deterministic source) is modelled as an
  explicit stream `amb : ℕ → ℕ` of 53-bit numerators together with a cursor:
  call `k` returns `(amb k % 2 ^ 53) / 2 ^ 53 ∈ [0,1)`.
  `Math.floor(r * len)` for `r = num / 2 ^ d` is `num * len / 2 ^ d` in `ℕ`.
* Mutation is made explicit by state passing.  The generator's
  `JSON.parse(JSON.stringify(initialMaze))` deep copy is `deepCopy`
  (structurally the identity on the model); the loop threads the copy, and
  the caller's object is reported back unchanged in `GenOutput.callerMaze`.
-/

namespace MazeGen

/-- A cell coordinate: the JS string key `"x,y"` as the pair `(x, y)`. -/
abbrev Cell : Type := ℕ × ℕ

/-- A link key `"A-B"`: the ordered pair of its two cells as written. -/
abbrev Link : Type := Cell × Cell

/-! ## Seeded PRNG (`scripts/random.js`)

```js
class Random {
  constructor(seed) { this.seed = seed | 0; }
  random() {
    let t = (this.seed += 0x6D2B79F5) | 0;
    t = Math.imul(t ^ t >>> 15, 1 | t);
    t = t + Math.imul(t ^ t >>> 7, 61 | t) ^ t;
    return ((t ^ t >>> 14) >>> 0) / 4294967296;
  }
}
```

Signed `| 0` values and their unsigned `>>> 0` counterparts have the same
32-bit pattern, and every JS bitwise operator acts on that pattern, so the
state and the temporaries are modelled by their patterns in `[0, 2^32)`.
`Math.imul` is 32-bit wrapping multiplication.  Note `this.seed += ...`
stores the untruncated sum (a JS double, exact for the integers reached);
only the read through `| 0` reduces mod `2 ^ 32`. -/

/-- The mulberry32 output numerator computed from the 32-bit state pattern
`p` (the value of `t` right after `(this.seed += 0x6D2B79F5) | 0`).  The
returned float is this numerator divided by `2 ^ 32`. -/
def mulberryOut (p : ℕ) : ℕ :=
  let t1 := ((p ^^^ (p >>> 15)) * (p ||| 1)) % 2 ^ 32
  let m2 := ((t1 ^^^ (t1 >>> 7)) * (t1 ||| 61)) % 2 ^ 32
  let t2 := ((t1 + m2) % 2 ^ 32) ^^^ t1
  t2 ^^^ (t2 >>> 14)

/-- The `Random` class.  `seed` is the exact integer content of `this.seed`
(untruncated, as the source stores it). -/
structure Random where
  seed : ℕ
deriving DecidableEq, Repr

/-- `new Random(seed)`: `this.seed = seed | 0` keeps the low 32 bits. -/
def Random.init (seed : ℕ) : Random := ⟨seed % 2 ^ 32⟩

/-- `random()`: advance the state by `0x6D2B79F5` and return the output
numerator (the returned float is the numerator over `2 ^ 32`). -/
def Random.next (r : Random) : ℕ × Random :=
  let s := r.seed + 0x6D2B79F5
  (mulberryOut (s % 2 ^ 32), ⟨s⟩)

/-- The numerator produced by the `n`-th call (0-based) on `r`. -/
def Random.nthOut (r : Random) : ℕ → ℕ
  | 0 => r.next.1
  | n + 1 => r.next.2.nthOut n

/-- The 32-bit-wrapping state recurrence of mulberry32:
`s ← (s + 0x6D2B79F5) mod 2^32`, from the low 32 bits of the seed. -/
def mulberryState (seed : ℕ) : ℕ → ℕ
  | 0 => seed % 2 ^ 32
  | n + 1 => (mulberryState seed n + 0x6D2B79F5) % 2 ^ 32

/-! ## Grid & link model (`scripts/generate-maze.js`) -/

/-- The maze record: `width`, `height`, `cells` (insertion-ordered object
keys), `links` (insertion-ordered object keys), `start`, `end`.  The JS
field `end` is `endCell` here. -/
structure Maze where
  width : ℕ
  height : ℕ
  cells : List Cell
  links : List Link
  start : Cell
  endCell : Cell
deriving DecidableEq, Repr

/-- `addLink(maze, cellA, cellB)`: `maze.links[cellA + "-" + cellB] = true`.
Assigning an existing object key keeps its position, a new key is appended. -/
def addLink (m : Maze) (a b : Cell) : Maze :=
  { m with links := if (a, b) ∈ m.links then m.links else m.links ++ [(a, b)] }

/-- The cell keys of a fresh `width × height` maze, in creation order
(`y` outer, `x` inner). -/
def mkCells (width height : ℕ) : List Cell :=
  (List.range height).flatMap fun y => (List.range width).map fun x => (x, y)

/-- The fresh maze built by `generateRandomMaze` when no `initialMaze` is
supplied: all cells, no links, corners as `start`/`end`. -/
def freshMaze (width height : ℕ) : Maze :=
  { width := width
    height := height
    cells := mkCells width height
    links := []
    start := (0, 0)
    endCell := (width - 1, height - 1) }

/-- `JSON.parse(JSON.stringify(maze))`: a structural clone.  The round trip
preserves every field and the key order of `cells` and `links`, so on the
model it is the identity; its role is that the loop mutates this copy and
never the caller's object. -/
def deepCopy (m : Maze) : Maze := m

/-! ## Connectivity analyzer (`scripts/analyze-maze.js`, `analyzeMaze`)

```js
const leader = {};
const get_leader = (cell) => {
  if (leader[cell] === undefined) return cell;
  if (leader[cell] == cell) return cell;
  leader[cell] = get_leader(leader[cell]);
  return leader[cell];
}
const connect_cells = (cellA, cellB) => {
  leader[get_leader(cellA)] = get_leader(cellB);
}
```

The `leader` object is an insertion-ordered association list.  Path
compression (`leader[cell] = get_leader(leader[cell])`) rewrites parent
pointers but never changes any cell's root, so `get_leader` is modelled by
the pure root-chase `rootF`; the fuel `ld.length + 1` is shown sufficient
for every leader table the analyzer builds (`UFGood.rank`). -/

/-- Lookup of `leader[c]` in the association list (first matching key). -/
def alookup (ld : List (Cell × Cell)) (c : Cell) : Option Cell :=
  match ld with
  | [] => none
  | (k, v) :: t => if k = c then some v else alookup t c

/-- JS object assignment `leader[k] = v`: overwrite in place if the key
exists, otherwise append the new key. -/
def aset (ld : List (Cell × Cell)) (k v : Cell) : List (Cell × Cell) :=
  if (alookup ld k).isSome then ld.map fun kv => if kv.1 = k then (k, v) else kv
  else ld ++ [(k, v)]

/-- The pure root chase of `get_leader`: absent cells and self-mapped cells
are their own leader, otherwise follow the pointer.  `fuel` bounds the chain
length (compression-free model of the recursion). -/
def rootF (ld : List (Cell × Cell)) : ℕ → Cell → Cell
  | 0, c => c
  | fuel + 1, c =>
    match alookup ld c with
    | none => c
    | some p => if p = c then c else rootF ld fuel p

/-- `get_leader(c)`: the root chase with fuel `ld.length + 1`, which the
invariants below show always reaches the root. -/
def root (ld : List (Cell × Cell)) (c : Cell) : Cell :=
  rootF ld (ld.length + 1) c

/-- `connect_cells(cellA, cellB)`: `leader[get_leader(cellA)] = get_leader(cellB)`. -/
def connect_cells (ld : List (Cell × Cell)) (a b : Cell) : List (Cell × Cell) :=
  aset ld (root ld a) (root ld b)

/-- Processing every link key in insertion order:
`Object.keys(maze.links).forEach(link => connect_cells(cell1, cell2))`. -/
def processLinks (links : List Link) : List (Cell × Cell) :=
  links.foldl (fun ld l => connect_cells ld l.1 l.2) []

/-- Building `dict_groups`: push each cell onto the array of its leader,
creating the leader's entry at first sight (JS object key order =
first-appearance order of leaders). -/
def addToGroup (acc : List (Cell × List Cell)) (r c : Cell) :
    List (Cell × List Cell) :=
  if acc.any (fun kv => kv.1 = r) then
    acc.map fun kv => if kv.1 = r then (r, kv.2 ++ [c]) else kv
  else acc ++ [(r, [c])]

/-- `dict_groups` after the loop over `Object.keys(maze.cells)`. -/
def dictGroups (ld : List (Cell × Cell)) (cells : List Cell) :
    List (Cell × List Cell) :=
  cells.foldl (fun acc c => addToGroup acc (root ld c) c) []

/-- The boundary scan: for each cell (in key order), its `down` then `right`
neighbor, kept when the neighbor exists and has a different leader. -/
def boundariesOf (ld : List (Cell × Cell)) (m : Maze) : List Link :=
  m.cells.flatMap fun c =>
    (([((c.1 : ℕ), c.2 + 1), (c.1 + 1, (c.2 : ℕ))].filter fun n =>
        n ∈ m.cells ∧ root ld n ≠ root ld c)).map fun n => (c, n)

/-- The analyzer result `{ groups, boundaries }`. -/
structure Analysis where
  groups : List (List Cell)
  boundaries : List Link
deriving DecidableEq, Repr

/-- `analyzeMaze(maze)`: process the links into the leader table, collect
the groups (`Object.values(dict_groups)`), scan the boundaries. -/
def analyzeMaze (m : Maze) : Analysis :=
  let ld := processLinks m.links
  { groups := (dictGroups ld m.cells).map (fun kv => kv.2)
    boundaries := boundariesOf ld m }

/-! ## BFS solver (`scripts/analyze-maze.js`, `solveMaze`)

The solver builds a bidirectional adjacency list from the link keys
(skipping links whose endpoints are not both cells), then runs a
breadth-first search over a queue of whole paths, marking each cell
visited the moment it is enqueued. -/

/-- The solver result object.  JS returns records with different field
sets, so every field is optional:
`{ error }` for a missing start/end,
`{ path, length, solved: true }` on success,
`{ path: [], length: 0, solved: false, error }` when no path exists. -/
structure SolveResult where
  solved : Option Bool := none
  path : Option (List Cell) := none
  length : Option ℕ := none
  error : Option String := none
deriving DecidableEq, Repr

/-- The adjacency list of `c`: for each link key in order, `cell2` is pushed
onto `adjacency.get(cell1)` and `cell1` onto `adjacency.get(cell2)` when both
are cells; cells not in `cells` have no entry (`|| []`). -/
def adjOf (m : Maze) (c : Cell) : List Cell :=
  if c ∈ m.cells then
    m.links.flatMap fun l =>
      if l.1 ∈ m.cells ∧ l.2 ∈ m.cells then
        (if l.1 = c then [l.2] else []) ++ (if l.2 = c then [l.1] else [])
      else []
  else []

/-- One pass of the neighbor loop: skip visited neighbors, otherwise mark
visited and enqueue the extended path. -/
def bfsExpand (path : List Cell) (vq : List Cell × List (List Cell))
    (n : Cell) : List Cell × List (List Cell) :=
  if n ∈ vq.1 then vq else (n :: vq.1, vq.2 ++ [path ++ [n]])

/-- The BFS loop.  `fuel` is a modelling bound (the JS loop has none);
`none` means the fuel ran out, `some none` that the queue emptied with no
path, `some (some p)` that the path `p` reached the end.  The fuel
`m.cells.length + 2` used by `solveMaze` is proved sufficient. -/
def bfsLoop (m : Maze) : ℕ → List Cell → List (List Cell) →
    Option (Option (List Cell))
  | 0, _, _ => none
  | _ + 1, _, [] => some none
  | fuel + 1, visited, path :: rest =>
    let current := path.getLastD (0, 0)
    if current = m.endCell then some (some path)
    else
      let vq := (adjOf m current).foldl (bfsExpand path) (visited, rest)
      bfsLoop m fuel vq.1 vq.2

/-- `solveMaze(maze)`: validate `start`/`end`, then BFS from `[[start]]`
with `start` visited. -/
def solveMaze (m : Maze) : SolveResult :=
  if m.start ∉ m.cells then { error := some "Start cell not found in maze" }
  else if m.endCell ∉ m.cells then { error := some "End cell not found in maze" }
  else
    match bfsLoop m (m.cells.length + 2) [m.start] [[m.start]] with
    | some (some p) =>
        { path := some p, length := some p.length, solved := some true }
    | some none =>
        { path := some [], length := some 0, solved := some false
          error := some "No path from start to end" }
    | none => {}

/-! ## Maze generator (`scripts/generate-maze.js`, `generateRandomMaze`)

```js
let seedQueue = seedPacket ? [...seedPacket] : [];
let rng = () => Math.random();
while (analysis.boundaries.length > 0 && iterations < maxIterations) {
  if (seedQueue.length > 0) {
    const seed = seedQueue.pop();
    const randomInstance = new Random(seed);
    rng = () => randomInstance.random();
  }
  const randomIndex = Math.floor(rng() * analysis.boundaries.length);
  ...
}
```

The active random source is either the ambient `Math.random` (a cursor into
the stream `amb`) or a captured `Random` instance whose state advances with
each draw.  Note `rng` is reassigned only inside `if (seedQueue.length > 0)`:
once the packet is exhausted the last `Random` instance keeps serving. -/

/-- The active random source: the ambient `Math.random`, or a captured
seeded `Random` instance. -/
inductive Rng where
  | ambient : Rng
  | seeded : Random → Rng
deriving DecidableEq, Repr

/-- Draw one number from the active source and floor-scale it by `len`
(`Math.floor(rng() * len)`), returning the index, the advanced source, and
the advanced ambient cursor.  An ambient value is `(amb k % 2^53) / 2^53`;
a seeded value is `num / 2^32`. -/
def draw (amb : ℕ → ℕ) (r : Rng) (ambIdx len : ℕ) : ℕ × Rng × ℕ :=
  match r with
  | .ambient => ((amb ambIdx % 2 ^ 53) * len / 2 ^ 53, .ambient, ambIdx + 1)
  | .seeded inst =>
      let (num, inst') := inst.next
      (num * len / 2 ^ 32, .seeded inst', ambIdx)

/-- The generator's loop state. -/
structure GenState where
  maze : Maze
  seedQueue : List ℕ
  rng : Rng
  ambIdx : ℕ
  iterations : ℕ
deriving DecidableEq, Repr

/-- One loop iteration given the current (non-empty) boundary list.
Returns the new state and the trace event: the seed popped (if the packet
was non-empty) and the active source used for this iteration's draw. -/
def genStep (amb : ℕ → ℕ) (st : GenState) (bs : List Link) :
    GenState × (Option ℕ × Rng) :=
  let pq : Option ℕ × List ℕ × Rng :=
    match st.seedQueue.getLast? with
    | some seed => (some seed, st.seedQueue.dropLast, Rng.seeded (Random.init seed))
    | none => (none, st.seedQueue, st.rng)
  let d := draw amb pq.2.2 st.ambIdx bs.length
  let l := bs.getD d.1 ((0, 0), (0, 0))
  ({ maze := addLink st.maze l.1 l.2
     seedQueue := pq.2.1
     rng := d.2.1
     ambIdx := d.2.2
     iterations := st.iterations + 1 }, (pq.1, pq.2.2))

/-- Whether `iterations < maxIterations` fails; `none` is the `Infinity`
default, which the count never reaches. -/
def capReached (maxIter : Option ℕ) (iters : ℕ) : Bool :=
  match maxIter with
  | some mi => decide (¬ iters < mi)
  | none => false

/-- The generation loop.  `maxIter = none` models the `Infinity` default.
`fuel` is a modelling bound; `none` means it ran out (the proofs below show
the fuel passed by `generateRandomMaze` suffices for the runs the claims
are about).  The second component is the per-iteration trace. -/
def genLoop (amb : ℕ → ℕ) (maxIter : Option ℕ) :
    ℕ → GenState → Option (GenState × List (Option ℕ × Rng))
  | 0, _ => none
  | fuel + 1, st =>
    let bs := (analyzeMaze st.maze).boundaries
    if bs = [] ∨ capReached maxIter st.iterations then
      some (st, [])
    else
      let se := genStep amb st bs
      match genLoop amb maxIter fuel se.1 with
      | none => none
      | some (stF, tr) => some (stF, se.2 :: tr)

/-- The options object of `generateRandomMaze` (the `talk` flag only prints
progress and is omitted). -/
structure GenOptions where
  width : ℕ
  height : ℕ
  initialMaze : Option Maze := none
  maxIterations : Option ℕ := none
  seedPacket : List ℕ := []

/-- What one completed run returns, plus the instrumentation trace and the
final ambient cursor. -/
structure GenRun where
  maze : Maze
  completed : Bool
  iterations : ℕ
  trace : List (Option ℕ × Rng)
  ambFinal : ℕ
deriving DecidableEq, Repr

/-- The full call result: the run (`none` only when the model fuel ran
out), and the caller's `initialMaze` object after the call — the deep copy
means the loop mutated the copy, so the caller's object is returned as it
was passed. -/
structure GenOutput where
  run : Option GenRun
  callerMaze : Option Maze

/-- `generateRandomMaze(options)`.  `amb` is the ambient `Math.random`
stream and `ambStart` the cursor position at call time. -/
def generateRandomMaze (o : GenOptions) (amb : ℕ → ℕ) (ambStart : ℕ) :
    GenOutput :=
  let maze0 :=
    match o.initialMaze with
    | some m => deepCopy m
    | none => freshMaze o.width o.height
  let st0 : GenState :=
    { maze := maze0, seedQueue := o.seedPacket, rng := .ambient
      ambIdx := ambStart, iterations := 0 }
  match genLoop amb o.maxIterations (maze0.cells.length + 1) st0 with
  | none => { run := none, callerMaze := o.initialMaze }
  | some (st, tr) =>
      { run := some
          { maze := st.maze
            completed := (analyzeMaze st.maze).boundaries.isEmpty
            iterations := st.iterations
            trace := tr
            ambFinal := st.ambIdx }
        callerMaze := o.initialMaze }

/-! ## Seed-packet optimizer (`scripts/generate-maze.js`, `generateLongMaze`)

```js
const seedPacketLength = width * height;
let seedPacket = Array.from({length: seedPacketLength},
                            () => Math.floor(Math.random() * 1000000));
...
const step = Math.round(seedPacketLength / divisions);
for (let i = 0; i < seedPacketLength; i += step) {
  for (let iter = 0; iter < iterations; iter++) {
    seedPacket[i]++;
    const result = generateRandomMaze({ width, height, seedPacket: [...seedPacket], talk });
    const solution = solveMaze(result.maze);
    if (solution.solved && solution.length > bestLength) { ... }
  }
}
```
-/

/-- `Math.round(a / b)` for naturals, `b > 0`: round half up.  The JS
float division and `Math.round` are exact at the magnitudes reached. -/
def jsRound (a b : ℕ) : ℕ := (2 * a + b) / (2 * b)

/-- The optimizer's mutable state across the nested loops. -/
structure OptState where
  seedPacket : List ℕ
  bestSeedPacket : List ℕ
  bestLength : ℕ
  bestMaze : Option Maze
  ambIdx : ℕ
deriving DecidableEq, Repr

/-- The options object of `generateLongMaze` (defaults
`iterations = 100`, `divisions = 10`). -/
structure OptOptions where
  width : ℕ
  height : ℕ
  iterations : ℕ := 100
  divisions : ℕ := 10

/-- The result `{ maze, length, seedPacket }`. -/
structure OptResult where
  maze : Option Maze
  length : ℕ
  seedPacket : List ℕ
deriving DecidableEq, Repr

/-- One inner iteration at anchor `i`: `seedPacket[i]++`, generate from a
copy of the packet, solve, and record a strictly longer solved result as
the new best.  `solution.solved && solution.length > bestLength`: `solved`
must be the present value `true`, and an absent `length` reads as a
falsy comparison (`getD 0`).  The `run = none` branch is the model-fuel
artifact, proved unreachable for the optimizer's calls. -/
def optInner (amb : ℕ → ℕ) (width height i : ℕ) (s : OptState) : OptState :=
  let packet := s.seedPacket.set i (s.seedPacket.getD i 0 + 1)
  let out := generateRandomMaze
    { width := width, height := height, seedPacket := packet } amb s.ambIdx
  match out.run with
  | none => { s with seedPacket := packet }
  | some r =>
    let sol := solveMaze r.maze
    let s1 := { s with seedPacket := packet, ambIdx := r.ambFinal }
    if sol.solved = some true ∧ s.bestLength < sol.length.getD 0 then
      { s1 with
        bestLength := sol.length.getD 0
        bestMaze := some (deepCopy r.maze)
        bestSeedPacket := packet }
    else s1

/-- The full anchor/iteration sweep over the given anchor indices. -/
def optSweep (amb : ℕ → ℕ) (width height iterations : ℕ)
    (anchorIdxs : List ℕ) (s0 : OptState) : OptState :=
  anchorIdxs.foldl
    (fun s i => (List.range iterations).foldl (fun s2 _ => optInner amb width height i s2) s)
    s0

/-- The anchor indices `0, step, 2·step, …` below `len` (`step > 0`). -/
def anchorList (len step : ℕ) : List ℕ :=
  (List.range ((len + step - 1) / step)).map (fun j => j * step)

/-- The optimizer's initial state: a `width × height` packet of ambient
draws `Math.floor(Math.random() * 1000000)`, nothing recorded yet. -/
def optInit (o : OptOptions) (amb : ℕ → ℕ) (ambStart : ℕ) : OptState :=
  let len := o.width * o.height
  let initPacket := (List.range len).map fun j =>
    (amb (ambStart + j) % 2 ^ 53) * 1000000 / 2 ^ 53
  { seedPacket := initPacket, bestSeedPacket := initPacket
    bestLength := 0, bestMaze := none, ambIdx := ambStart + len }

/-- `generateLongMaze(options)`.  Returns `none` exactly when the JS anchor
loop diverges: `step = Math.round(len / divisions) = 0` with `len > 0`
makes `for (i = 0; i < len; i += 0)` loop forever.  `divisions = 0` gives
`step = Infinity` in JS, i.e. a single anchor at `0` when `len > 0`. -/
def generateLongMaze (o : OptOptions) (amb : ℕ → ℕ) (ambStart : ℕ) :
    Option OptResult :=
  let len := o.width * o.height
  let anchors : Option (List ℕ) :=
    if o.divisions = 0 then some (if len = 0 then [] else [0])
    else
      let step := jsRound len o.divisions
      if len ≠ 0 ∧ step = 0 then none
      else some (anchorList len step)
  match anchors with
  | none => none
  | some idxs =>
      let sF := optSweep amb o.width o.height o.iterations idxs
        (optInit o amb ambStart)
      some { maze := sF.bestMaze, length := sF.bestLength
             seedPacket := sF.bestSeedPacket }

/-! ## PRNG lemmas -/

theorem xor_lt_pow {a b n : ℕ} (ha : a < 2 ^ n) (hb : b < 2 ^ n) :
    a ^^^ b < 2 ^ n :=
  Nat.bitwise_lt_two_pow ha hb

theorem mulberryOut_lt (p : ℕ) : mulberryOut p < 2 ^ 32 := by
  unfold mulberryOut
  have h1 : ((p ^^^ (p >>> 15)) * (p ||| 1)) % 2 ^ 32 < 2 ^ 32 :=
    Nat.mod_lt _ (by norm_num)
  set t1 := ((p ^^^ (p >>> 15)) * (p ||| 1)) % 2 ^ 32 with ht1
  set m2 := ((t1 ^^^ (t1 >>> 7)) * (t1 ||| 61)) % 2 ^ 32 with hm2
  have h2 : (t1 + m2) % 2 ^ 32 < 2 ^ 32 := Nat.mod_lt _ (by norm_num)
  have h3 : ((t1 + m2) % 2 ^ 32) ^^^ t1 < 2 ^ 32 := xor_lt_pow h2 h1
  set t2 := ((t1 + m2) % 2 ^ 32) ^^^ t1 with ht2
  have h4 : t2 >>> 14 ≤ t2 := by
    rw [Nat.shiftRight_eq_div_pow]; exact Nat.div_le_self _ _
  exact xor_lt_pow h3 (lt_of_le_of_lt h4 h3)

/-- The `Random` instance reached after `n` calls. -/
def Random.iter (r : Random) : ℕ → Random
  | 0 => r
  | n + 1 => r.next.2.iter n

theorem Random.nthOut_eq_iter (r : Random) (n : ℕ) :
    r.nthOut n = (r.iter n).next.1 := by
  induction n generalizing r with
  | zero => rfl
  | succ n ih => exact ih r.next.2

theorem Random.iter_seed (r : Random) (n : ℕ) :
    (r.iter n).seed = r.seed + n * 0x6D2B79F5 := by
  induction n generalizing r with
  | zero => simp [Random.iter]
  | succ n ih =>
    show (r.next.2.iter n).seed = _
    rw [ih]
    show r.seed + 0x6D2B79F5 + n * 0x6D2B79F5 = _
    ring

theorem mulberryState_eq (seed n : ℕ) :
    mulberryState seed n = (seed % 2 ^ 32 + n * 0x6D2B79F5) % 2 ^ 32 := by
  induction n with
  | zero => simp [mulberryState]
  | succ n ih =>
    show (mulberryState seed n + 0x6D2B79F5) % 2 ^ 32 = _
    rw [ih, Nat.mod_add_mod]
    congr 1
    ring

/-- The source's untruncated state (`this.seed += ...` stores the exact sum)
produces, through the `| 0` read, exactly the outputs of the 32-bit-wrapping
state recurrence: call `n` outputs `mulberryOut` of the wrapped state. -/
theorem Random.nthOut_eq_mulberry (seed n : ℕ) :
    (Random.init seed).nthOut n = mulberryOut (mulberryState seed (n + 1)) := by
  rw [Random.nthOut_eq_iter]
  show mulberryOut ((((Random.init seed).iter n).seed + 0x6D2B79F5) % 2 ^ 32) = _
  rw [Random.iter_seed]
  have harg : seed % 2 ^ 32 + n * 0x6D2B79F5 + 0x6D2B79F5 =
      seed % 2 ^ 32 + (n + 1) * 0x6D2B79F5 := by ring
  simp only [Random.init]
  rw [mulberryState_eq, harg]

/-! ## Union-find theory

`Conn ls` is the equivalence generated by the link list `ls`; the analyzer's
leader table is shown to compute it: two cells get the same `root` iff they
are connected.  The proofs go by induction along the link list through
`processLinks`, maintaining a rank function that witnesses that every
parent chain descends, is rooted at a non-key, and is short enough for the
fuel `ld.length + 1`. -/

/-- Connectivity generated by a link list (as an unordered relation). -/
inductive Conn (ls : List Link) : Cell → Cell → Prop where
  | refl (c : Cell) : Conn ls c c
  | rel {a b : Cell} : (a, b) ∈ ls → Conn ls a b
  | symm {a b : Cell} : Conn ls a b → Conn ls b a
  | trans {a b c : Cell} : Conn ls a b → Conn ls b c → Conn ls a c

theorem Conn.mono {ls ls2 : List Link} {x y : Cell} (h : Conn ls x y) :
    Conn (ls ++ ls2) x y := by
  induction h with
  | refl c => exact Conn.refl c
  | rel hm => exact Conn.rel (List.mem_append_left _ hm)
  | symm _ ih => exact ih.symm
  | trans _ _ ih1 ih2 => exact ih1.trans ih2

theorem conn_nil {x y : Cell} : Conn [] x y ↔ x = y := by
  constructor
  · intro h
    induction h with
    | refl c => rfl
    | rel hm => exact absurd hm (List.not_mem_nil _)
    | symm _ ih => exact ih.symm
    | trans _ _ ih1 ih2 => exact ih1.trans ih2
  · rintro rfl
    exact Conn.refl x

theorem conn_snoc {ls : List Link} {a b x y : Cell} :
    Conn (ls ++ [(a, b)]) x y ↔
      Conn ls x y ∨ (Conn ls x a ∧ Conn ls b y) ∨ (Conn ls x b ∧ Conn ls a y) := by
  constructor
  · intro h
    induction h with
    | refl c => exact Or.inl (Conn.refl c)
    | rel hm =>
      rcases List.mem_append.mp hm with hin | hone
      · exact Or.inl (Conn.rel hin)
      · rcases List.mem_singleton.mp hone with he
        cases he
        exact Or.inr (Or.inl ⟨Conn.refl _, Conn.refl _⟩)
    | symm _ ih =>
      rcases ih with h1 | ⟨h1, h2⟩ | ⟨h1, h2⟩
      · exact Or.inl h1.symm
      · exact Or.inr (Or.inr ⟨h2.symm, h1.symm⟩)
      · exact Or.inr (Or.inl ⟨h2.symm, h1.symm⟩)
    | trans _ _ ih1 ih2 =>
      rcases ih1 with h1 | ⟨h1, h2⟩ | ⟨h1, h2⟩
      · rcases ih2 with h3 | ⟨h3, h4⟩ | ⟨h3, h4⟩
        · exact Or.inl (h1.trans h3)
        · exact Or.inr (Or.inl ⟨h1.trans h3, h4⟩)
        · exact Or.inr (Or.inr ⟨h1.trans h3, h4⟩)
      · rcases ih2 with h3 | ⟨h3, h4⟩ | ⟨h3, h4⟩
        · exact Or.inr (Or.inl ⟨h1, h2.trans h3⟩)
        · exact Or.inr (Or.inl ⟨h1, h4⟩)
        · exact Or.inl (h1.trans h4)
      · rcases ih2 with h3 | ⟨h3, h4⟩ | ⟨h3, h4⟩
        · exact Or.inr (Or.inr ⟨h1, h2.trans h3⟩)
        · exact Or.inl (h1.trans h4)
        · exact Or.inr (Or.inr ⟨h1, h4⟩)
  · intro h
    rcases h with h1 | ⟨h1, h2⟩ | ⟨h1, h2⟩
    · exact h1.mono
    · exact (h1.mono.trans (Conn.rel (List.mem_append_right _ (List.mem_singleton.mpr rfl)))).trans h2.mono
    · exact (h1.mono.trans (Conn.rel (List.mem_append_right _ (List.mem_singleton.mpr rfl))).symm).trans h2.mono

/-- A rank function witnessing that parent pointers descend. -/
def Decr (ld : List (Cell × Cell)) (rk : Cell → ℕ) : Prop :=
  ∀ c p, alookup ld c = some p → p ≠ c → rk p < rk c

theorem alookup_nil (c : Cell) : alookup [] c = none := rfl

theorem alookup_append_single (ld : List (Cell × Cell)) (k v c : Cell) :
    alookup (ld ++ [(k, v)]) c =
      match alookup ld c with
      | some x => some x
      | none => if k = c then some v else none := by
  induction ld with
  | nil => rfl
  | cons kv t ih =>
    show alookup ((kv.1, kv.2) :: (t ++ [(k, v)])) c = _
    by_cases hk : kv.1 = c
    · simp [alookup, hk]
    · simpa [alookup, hk] using ih

theorem rootF_stable (ld : List (Cell × Cell)) (rk : Cell → ℕ)
    (hd : Decr ld rk) :
    ∀ n c, rk c ≤ n → ∀ m, n ≤ m → rootF ld (m + 1) c = rootF ld (n + 1) c := by
  intro n
  induction n with
  | zero =>
    intro c hc m _
    cases m with
    | zero => rfl
    | succ m =>
      show rootF ld (m + 1 + 1) c = rootF ld 1 c
      simp only [rootF]
      cases hl : alookup ld c with
      | none => rfl
      | some p =>
        by_cases hpc : p = c
        · simp [hpc]
        · exact absurd (hd c p hl hpc) (by omega)
  | succ n ih =>
    intro c hc m hm
    cases m with
    | zero => omega
    | succ m =>
      show rootF ld (m + 1 + 1) c = rootF ld (n + 1 + 1) c
      simp only [rootF]
      cases hl : alookup ld c with
      | none => rfl
      | some p =>
        by_cases hpc : p = c
        · simp [hpc]
        · simp only [hpc, if_false]
          have hrk : rk p ≤ n := by have := hd c p hl hpc; omega
          calc rootF ld (m + 1) p = rootF ld (n + 1) p := ih p hrk m (by omega)

theorem root_nonkey {ld : List (Cell × Cell)} {c : Cell}
    (h : alookup ld c = none) : root ld c = c := by
  simp [root, rootF, h]

theorem root_selfkey {ld : List (Cell × Cell)} {c : Cell}
    (h : alookup ld c = some c) : root ld c = c := by
  simp [root, rootF, h]

theorem root_parent {ld : List (Cell × Cell)} {rk : Cell → ℕ}
    (hd : Decr ld rk) (hb : ∀ c, rk c ≤ ld.length) {c p : Cell}
    (hp : alookup ld c = some p) : root ld c = root ld p := by
  by_cases hpc : p = c
  · cases hpc; rfl
  · have hlen : 1 ≤ ld.length := by
      cases ld with
      | nil => exact absurd hp (by simp [alookup_nil])
      | cons kv t => simp
    have hrkp : rk p < rk c := hd c p hp hpc
    have h1 : root ld c = rootF ld ld.length p := by
      show rootF ld (ld.length + 1) c = _
      cases hL : ld.length with
      | zero => omega
      | succ L =>
        simp only [rootF, hp, hpc, if_false]
    have h2 : rootF ld ld.length p = rootF ld (rk p + 1) p := by
      cases hL : ld.length with
      | zero => omega
      | succ L =>
        exact rootF_stable ld rk hd (rk p) p le_rfl L (by have := hb c; omega)
    have h3 : root ld p = rootF ld (rk p + 1) p :=
      rootF_stable ld rk hd (rk p) p le_rfl ld.length (by have := hb c; omega)
    rw [h1, h2, h3]

/-- The invariant of the leader table built from a merge sequence:
its length, a rank certificate, roots are non-keys, and `root` equality is
exactly `Conn`. -/
structure UFGood (ls : List Link) : Prop where
  len : (processLinks ls).length = ls.length
  rank : ∃ rk : Cell → ℕ, Decr (processLinks ls) rk ∧
    (∀ c, alookup (processLinks ls) c = none → rk c = 0) ∧
    (∀ c, rk c ≤ ls.length)
  rootRoot : ∀ c, alookup (processLinks ls) (root (processLinks ls) c) = none
  rootChar : ∀ x y,
    (root (processLinks ls) x = root (processLinks ls) y ↔ Conn ls x y)

theorem processLinks_nil : processLinks [] = [] := rfl

theorem UFGood.nil : UFGood [] := by
  have hroot : ∀ c : Cell, root [] c = c := fun c => root_nonkey rfl
  refine ⟨rfl, ⟨fun _ => 0, ?_, fun _ _ => rfl, fun _ => Nat.zero_le _⟩, ?_, ?_⟩
  · intro c p hp
    exact absurd hp (by simp [processLinks_nil, alookup_nil])
  · intro c
    rw [processLinks_nil, hroot c]
    rfl
  · intro x y
    rw [processLinks_nil, hroot x, hroot y, conn_nil]

theorem processLinks_snoc (ls : List Link) (l : Link) :
    processLinks (ls ++ [l]) = connect_cells (processLinks ls) l.1 l.2 := by
  simp [processLinks, List.foldl_append]

theorem root_idem {ls : List Link} (h : UFGood ls) (c : Cell) :
    root (processLinks ls) (root (processLinks ls) c) =
      root (processLinks ls) c :=
  root_nonkey (h.rootRoot c)

/-- The union step: appending a fresh merge link `(a, b)` appends the key
`(root a, root b)` to the table, redirects exactly the cells rooted at
`root a` to `root b`, and preserves the invariant. -/
theorem UFGood.snoc {ls : List Link} {a b : Cell} (h : UFGood ls)
    (hab : ¬ Conn ls a b) :
    UFGood (ls ++ [(a, b)]) ∧
    (∀ x, root (processLinks (ls ++ [(a, b)])) x =
      if root (processLinks ls) x = root (processLinks ls) a
      then root (processLinks ls) b else root (processLinks ls) x) ∧
    processLinks (ls ++ [(a, b)]) =
      processLinks ls ++ [(root (processLinks ls) a, root (processLinks ls) b)] := by
  obtain ⟨rk, hdecr, hzero, hbound⟩ := h.rank
  set ld := processLinks ls with hld
  set rA := root ld a with hrA
  set rB := root ld b with hrB
  have hbound' : ∀ c, rk c ≤ ld.length := fun c => h.len ▸ hbound c
  have hne : rA ≠ rB := fun e => hab ((h.rootChar a b).mp e)
  have hrootA : root ld rA = rA := root_idem h a
  have hrootB : root ld rB = rB := root_idem h b
  have hlA : alookup ld rA = none := h.rootRoot a
  have hlB : alookup ld rB = none := h.rootRoot b
  -- the new table is the old one with `(rA, rB)` appended
  have hpl : processLinks (ls ++ [(a, b)]) = ld ++ [(rA, rB)] := by
    rw [processLinks_snoc]
    show connect_cells ld a b = _
    unfold connect_cells aset
    rw [← hrA, ← hrB, hlA]
    simp
  set ld' := ld ++ [(rA, rB)] with hld'
  have hlook : ∀ c, alookup ld' c =
      match alookup ld c with
      | some x => some x
      | none => if rA = c then some rB else none :=
    fun c => alookup_append_single ld rA rB c
  have hlook_ne : ∀ c, c ≠ rA → alookup ld' c = alookup ld c := by
    intro c hc
    rw [hlook c]
    cases hl : alookup ld c with
    | some x => rfl
    | none => exact if_neg (fun e => hc e.symm)
  have hlookA : alookup ld' rA = some rB := by
    rw [hlook rA, hlA]
    simp
  have hlookB : alookup ld' rB = none := by
    rw [hlook_ne rB (Ne.symm hne), hlB]
  -- no-self-loop of the old table
  have hnoself : ∀ c p, alookup ld c = some p → p ≠ c := by
    intro c p hp hpc
    cases hpc
    exact absurd (root_selfkey hp ▸ h.rootRoot c) (by simp [root_selfkey hp, hp])
  -- the updated rank certificate
  set rk' : Cell → ℕ := fun c => if root ld c = rA then rk c + 1 else rk c with hrk'
  have hrkA : rk' rA = rk rA + 1 := by simp [hrk', hrootA]
  have hrkB : rk' rB = rk rB := by simp [hrk', hrootB, Ne.symm hne]
  have hdecr' : Decr ld' rk' := by
    intro c p hp hpc
    by_cases hcA : c = rA
    · cases hcA
      rw [hlookA] at hp
      cases hp
      rw [hrkA, hrkB, hzero rB hlB]
      omega
    · rw [hlook_ne c hcA] at hp
      have hroots : root ld c = root ld p := root_parent hdecr hbound' hp
      have := hdecr c p hp hpc
      simp only [hrk', hroots]
      split <;> omega
  have hzero' : ∀ c, alookup ld' c = none → rk' c = 0 := by
    intro c hc
    have hcA : c ≠ rA := by
      intro e
      rw [e, hlookA] at hc
      exact Option.noConfusion hc
    rw [hlook_ne c hcA] at hc
    have : root ld c = c := root_nonkey hc
    simp [hrk', this, hcA, hzero c hc]
  have hbound'' : ∀ c, rk' c ≤ ld'.length := by
    intro c
    have h1 : ld'.length = ld.length + 1 := by simp [hld']
    have := hbound' c
    simp only [hrk']
    split <;> omega
  -- the merge formula for the new root function
  have hmerge : ∀ x, root ld' x = if root ld x = rA then rB else root ld x := by
    have key : ∀ n x, rk x ≤ n →
        root ld' x = if root ld x = rA then rB else root ld x := by
      intro n
      induction n with
      | zero =>
        intro x hx
        cases hl : alookup ld x with
        | some p =>
          have := hdecr x p hl (hnoself x p hl)
          omega
        | none =>
          have hrx : root ld x = x := root_nonkey hl
          by_cases hxA : x = rA
          · cases hxA
            have h1 : root ld' rA = root ld' rB :=
              root_parent hdecr' hbound'' hlookA
            have h2 : root ld' rB = rB := root_nonkey hlookB
            simp [h1, h2, hrx]
          · have : root ld' x = x := root_nonkey (hlook_ne x hxA ▸ hl)
            simp [this, hrx, hxA]
      | succ n ih =>
        intro x hx
        cases hl : alookup ld x with
        | some p =>
          have hxA : x ≠ rA := by
            intro e
            rw [e, hlA] at hl
            exact Option.noConfusion hl
          have h1 : root ld' x = root ld' p :=
            root_parent hdecr' hbound'' (hlook_ne x hxA ▸ hl)
          have h2 : root ld x = root ld p := root_parent hdecr hbound' hl
          have h3 := hdecr x p hl (hnoself x p hl)
          rw [h1, h2, ih p (by omega)]
        | none =>
          have hrx : root ld x = x := root_nonkey hl
          by_cases hxA : x = rA
          · cases hxA
            have h1 : root ld' rA = root ld' rB :=
              root_parent hdecr' hbound'' hlookA
            have h2 : root ld' rB = rB := root_nonkey hlookB
            simp [h1, h2, hrx]
          · have : root ld' x = x := root_nonkey (hlook_ne x hxA ▸ hl)
            simp [this, hrx, hxA]
    exact fun x => key (rk x) x le_rfl
  refine ⟨⟨?_, ?_, ?_, ?_⟩, by rw [hpl]; exact hmerge, hpl⟩
  · rw [hpl, hld', hld]
    simp [h.len]
  · refine ⟨rk', by rw [hpl]; exact hdecr', by rw [hpl]; exact hzero', ?_⟩
    intro c
    have := hbound'' c
    have h1 : ld'.length = ld.length + 1 := by simp [hld']
    have h2 : ld.length = ls.length := h.len
    simp only [List.length_append, List.length_singleton]
    omega
  · intro c
    rw [hpl]
    show alookup ld' (root ld' c) = none
    rw [hmerge c]
    by_cases hc : root ld c = rA
    · simp [hc, hlookB]
    · simp only [hc, if_false]
      rw [hlook_ne _ hc]
      exact h.rootRoot c
  · intro x y
    rw [hpl]
    show root ld' x = root ld' y ↔ _
    rw [hmerge x, hmerge y, conn_snoc]
    have cx := h.rootChar x y
    have cxa := h.rootChar x a
    have cby := h.rootChar b y
    have cxb := h.rootChar x b
    have cay := h.rootChar a y
    constructor
    · intro e
      by_cases hx : root ld x = rA
      · by_cases hy : root ld y = rA
        · exact Or.inl (cx.mp (hx.trans hy.symm))
        · rw [if_pos hx, if_neg hy] at e
          exact Or.inr (Or.inl ⟨cxa.mp (hx.trans hrA), cby.mp (hrB.symm.trans e)⟩)
      · by_cases hy : root ld y = rA
        · rw [if_neg hx, if_pos hy] at e
          exact Or.inr (Or.inr ⟨cxb.mp (e.trans hrB), cay.mp (hrA.symm.trans hy.symm)⟩)
        · rw [if_neg hx, if_neg hy] at e
          exact Or.inl (cx.mp e)
    · intro hdisj
      rcases hdisj with e | ⟨e1, e2⟩ | ⟨e1, e2⟩
      · by_cases hx : root ld x = rA
        · have hy : root ld y = rA := (cx.mpr e).symm.trans hx
          rw [if_pos hx, if_pos hy]
        · have hy : ¬ root ld y = rA := fun hy => hx ((cx.mpr e).trans hy)
          rw [if_neg hx, if_neg hy]
          exact cx.mpr e
      · have hx : root ld x = rA := (cxa.mpr e1).trans hrA.symm
        have hyB : root ld y = rB := (cby.mpr e2).symm.trans hrB.symm
        have hy : ¬ root ld y = rA := fun hy => hne ((hy.symm.trans hyB).symm).symm
        rw [if_pos hx, if_neg hy]
        exact hyB.symm
      · have hxB : root ld x = rB := (cxb.mpr e1).trans hrB.symm
        have hx : ¬ root ld x = rA := fun hx => hne (hx.symm.trans hxB)
        have hy : root ld y = rA := (cay.mpr e2).symm.trans hrA.symm
        rw [if_neg hx, if_pos hy]
        exact hxB

/-! ## Merge sequences and group counting -/

/-- A link list in which every link connected two previously separate
components when it was appended — exactly what the generator produces,
since it only ever links boundary pairs. -/
inductive MergeSeq : List Link → Prop where
  | nil : MergeSeq []
  | snoc {ls : List Link} {a b : Cell} :
      MergeSeq ls → ¬ Conn ls a b → MergeSeq (ls ++ [(a, b)])

theorem MergeSeq.good {ls : List Link} (h : MergeSeq ls) : UFGood ls := by
  induction h with
  | nil => exact UFGood.nil
  | snoc _ hc ih => exact (ih.snoc hc).1

/-- The number of distinct leaders over the cell list. -/
def nGroups (ls : List Link) (cells : List Cell) : ℕ :=
  ((cells.map (root (processLinks ls))).toFinset).card

/-- All link endpoints lie in the cell list. -/
def EndsIn (ls : List Link) (cells : List Cell) : Prop :=
  ∀ l ∈ ls, l.1 ∈ cells ∧ l.2 ∈ cells

theorem nGroups_nil (cells : List Cell) :
    nGroups [] cells = cells.toFinset.card := by
  unfold nGroups
  congr 1
  have : cells.map (root (processLinks [])) = cells.map id :=
    List.map_congr_left fun c _ => root_nonkey rfl
  rw [this, List.map_id]

theorem toFinset_map_eq_image (l : List Cell) (f : Cell → Cell) :
    (l.map f).toFinset = l.toFinset.image f := by
  ext x
  simp [List.mem_toFinset, List.mem_map, Finset.mem_image]

theorem image_replace (S : Finset Cell) (rA rB : Cell) (_hA : rA ∈ S)
    (hB : rB ∈ S) (hne : rA ≠ rB) :
    S.image (fun r => if r = rA then rB else r) = S.erase rA := by
  ext x
  simp only [Finset.mem_image, Finset.mem_erase]
  constructor
  · rintro ⟨r, hr, he⟩
    by_cases hrA : r = rA
    · rw [if_pos hrA] at he
      exact ⟨he ▸ Ne.symm hne, he ▸ hB⟩
    · rw [if_neg hrA] at he
      exact ⟨he ▸ hrA, he ▸ hr⟩
  · rintro ⟨hxne, hxS⟩
    exact ⟨x, hxS, if_neg hxne⟩

theorem nGroups_merge {ls : List Link} {a b : Cell} {cells : List Cell}
    (h : MergeSeq ls) (hab : ¬ Conn ls a b) (ha : a ∈ cells)
    (hb : b ∈ cells) :
    nGroups ls cells = nGroups (ls ++ [(a, b)]) cells + 1 := by
  have hg := h.good
  obtain ⟨_, hmerge, _⟩ := hg.snoc hab
  set ld := processLinks ls with hld
  set rA := root ld a with hrA
  set rB := root ld b with hrB
  have hne : rA ≠ rB := fun e => hab ((hg.rootChar a b).mp e)
  have hmap : cells.map (root (processLinks (ls ++ [(a, b)]))) =
      (cells.map (root ld)).map (fun r => if r = rA then rB else r) := by
    rw [List.map_map]
    refine List.map_congr_left fun c _ => ?_
    rw [hmerge c]
    rfl
  unfold nGroups
  rw [hmap,
    toFinset_map_eq_image (cells.map (root ld)) (fun r => if r = rA then rB else r)]
  set S := (cells.map (root ld)).toFinset with hS
  have hAS : rA ∈ S := by
    rw [hS, List.mem_toFinset]
    exact List.mem_map.mpr ⟨a, ha, rfl⟩
  have hBS : rB ∈ S := by
    rw [hS, List.mem_toFinset]
    exact List.mem_map.mpr ⟨b, hb, rfl⟩
  rw [image_replace S rA rB hAS hBS hne, Finset.card_erase_of_mem hAS]
  have : 1 ≤ S.card := Finset.card_pos.mpr ⟨rA, hAS⟩
  omega

theorem mergeSeq_count {ls : List Link} {cells : List Cell}
    (h : MergeSeq ls) (he : EndsIn ls cells) :
    nGroups ls cells + ls.length = cells.toFinset.card := by
  induction h with
  | nil => simpa using nGroups_nil cells
  | @snoc ls a b hm hc ih =>
    have hsub : EndsIn ls cells := fun l hl => he l (List.mem_append_left _ hl)
    have hend := he (a, b) (List.mem_append_right _ (List.mem_singleton.mpr rfl))
    have := nGroups_merge hm hc hend.1 hend.2
    have h2 := ih hsub
    simp only [List.length_append, List.length_singleton]
    omega

/-! ## Grid lemmas -/

theorem mkCells_succ (w h : ℕ) :
    mkCells w (h + 1) = mkCells w h ++ (List.range w).map (fun x => (x, h)) := by
  unfold mkCells
  rw [List.range_succ, List.flatMap_append]
  simp

theorem mem_mkCells {w h : ℕ} {c : Cell} :
    c ∈ mkCells w h ↔ c.1 < w ∧ c.2 < h := by
  induction h with
  | zero => simp [mkCells]
  | succ h ih =>
    rw [mkCells_succ, List.mem_append, ih]
    constructor
    · rintro (⟨h1, h2⟩ | hm)
      · exact ⟨h1, by omega⟩
      · rcases List.mem_map.mp hm with ⟨x, hx, he⟩
        cases he
        exact ⟨List.mem_range.mp hx, by omega⟩
    · rintro ⟨h1, h2⟩
      by_cases hy : c.2 < h
      · exact Or.inl ⟨h1, hy⟩
      · refine Or.inr (List.mem_map.mpr ⟨c.1, List.mem_range.mpr h1, ?_⟩)
        have : c.2 = h := by omega
        cases c
        simp_all

theorem nodup_mkCells (w h : ℕ) : (mkCells w h).Nodup := by
  induction h with
  | zero => simp [mkCells]
  | succ h ih =>
    rw [mkCells_succ]
    refine ih.append ((List.nodup_range w).map ?_) ?_
    · intro x1 x2 he
      exact (Prod.mk.injEq _ _ _ _ ▸ he).1
    · intro c hc hc2
      rcases List.mem_map.mp hc2 with ⟨x, _, he⟩
      have := mem_mkCells.mp hc
      cases he
      omega

theorem length_mkCells (w h : ℕ) : (mkCells w h).length = w * h := by
  induction h with
  | zero => simp [mkCells]
  | succ h ih =>
    rw [mkCells_succ, List.length_append, ih]
    simp [Nat.mul_succ]

theorem card_mkCells (w h : ℕ) : (mkCells w h).toFinset.card = w * h := by
  rw [List.card_toFinset, (nodup_mkCells w h).dedup, length_mkCells]

/-- If every in-grid down/right neighbor has the same leader as its cell,
every cell has the leader of the origin. -/
theorem grid_same_root {w h : ℕ} (ld : List (Cell × Cell))
    (H : ∀ c ∈ mkCells w h, ∀ n : Cell,
      (n = (c.1, c.2 + 1) ∨ n = (c.1 + 1, c.2)) → n ∈ mkCells w h →
        root ld n = root ld c) :
    ∀ x y, x < w → y < h → root ld (x, y) = root ld (0, 0) := by
  have hrow : ∀ y, y < h → ∀ x, x < w → root ld (x, y) = root ld (0, y) := by
    intro y hy x
    induction x with
    | zero => intro _; rfl
    | succ x ih =>
      intro hx
      have h1 : ((x : ℕ), y) ∈ mkCells w h := mem_mkCells.mpr ⟨by omega, hy⟩
      have h2 : ((x + 1 : ℕ), y) ∈ mkCells w h := mem_mkCells.mpr ⟨hx, hy⟩
      have := H (x, y) h1 (x + 1, y) (Or.inr rfl) h2
      rw [this]
      exact ih (by omega)
  have hcol : 0 < w → ∀ y, y < h → root ld (0, y) = root ld (0, 0) := by
    intro hw y
    induction y with
    | zero => intro _; rfl
    | succ y ih =>
      intro hy
      have h1 : ((0 : ℕ), y) ∈ mkCells w h := mem_mkCells.mpr ⟨hw, by omega⟩
      have h2 : ((0 : ℕ), y + 1) ∈ mkCells w h := mem_mkCells.mpr ⟨hw, hy⟩
      have := H (0, y) h1 (0, y + 1) (Or.inl rfl) h2
      rw [this]
      exact ih (by omega)
  intro x y hx hy
  rw [hrow y hy x hx]
  exact hcol (by omega) y hy

/-! ## Boundary and group-list lemmas -/

theorem boundariesOf_eq_nil_iff (ld : List (Cell × Cell)) (m : Maze) :
    boundariesOf ld m = [] ↔
      ∀ c ∈ m.cells, ∀ n : Cell,
        (n = (c.1, c.2 + 1) ∨ n = (c.1 + 1, c.2)) → n ∈ m.cells →
          root ld n = root ld c := by
  unfold boundariesOf
  rw [List.flatMap_eq_nil_iff]
  constructor
  · intro H c hc n hn hnm
    have := H c hc
    rw [List.map_eq_nil_iff, List.filter_eq_nil_iff] at this
    by_contra hroot
    have hmem : n ∈ [((c.1 : ℕ), c.2 + 1), (c.1 + 1, (c.2 : ℕ))] := by
      rcases hn with rfl | rfl <;> simp
    exact this n hmem (by simp [hnm, hroot])
  · intro H c hc
    rw [List.map_eq_nil_iff, List.filter_eq_nil_iff]
    intro n hmem hsat
    simp only [decide_eq_true_eq] at hsat
    rcases List.mem_cons.mp hmem with rfl | hmem2
    · exact hsat.2 (H c hc _ (Or.inl rfl) hsat.1)
    · rcases List.mem_singleton.mp hmem2 with rfl
      exact hsat.2 (H c hc _ (Or.inr rfl) hsat.1)

theorem mem_boundariesOf {ld : List (Cell × Cell)} {m : Maze} {l : Link}
    (h : l ∈ boundariesOf ld m) :
    l.1 ∈ m.cells ∧ l.2 ∈ m.cells ∧ root ld l.2 ≠ root ld l.1 ∧
      (l.2 = (l.1.1, l.1.2 + 1) ∨ l.2 = (l.1.1 + 1, l.1.2)) := by
  unfold boundariesOf at h
  rcases List.mem_flatMap.mp h with ⟨c, hc, hin⟩
  rcases List.mem_map.mp hin with ⟨n, hn, he⟩
  have hf := List.mem_filter.mp hn
  simp only [decide_eq_true_eq] at hf
  cases he
  refine ⟨hc, hf.2.1, hf.2.2, ?_⟩
  rcases List.mem_cons.mp hf.1 with rfl | h2
  · exact Or.inl rfl
  · rcases List.mem_singleton.mp h2 with rfl
    exact Or.inr rfl

theorem addToGroup_keys_mem (acc : List (Cell × List Cell)) (r c : Cell)
    (h : acc.any (fun kv => kv.1 = r)) :
    (addToGroup acc r c).map Prod.fst = acc.map Prod.fst ∧
      (addToGroup acc r c).length = acc.length := by
  unfold addToGroup
  rw [if_pos h]
  refine ⟨?_, by simp⟩
  rw [List.map_map]
  refine List.map_congr_left fun kv _ => ?_
  by_cases hk : kv.1 = r
  · simp [hk]
  · simp [hk]

theorem addToGroup_keys_new (acc : List (Cell × List Cell)) (r c : Cell)
    (h : ¬ acc.any (fun kv => kv.1 = r)) :
    addToGroup acc r c = acc ++ [(r, [c])] := by
  unfold addToGroup
  rw [if_neg h]

theorem any_key_iff (acc : List (Cell × List Cell)) (r : Cell) :
    (acc.any (fun kv => kv.1 = r) : Prop) ↔ r ∈ (acc.map Prod.fst).toFinset := by
  simp [List.any_eq_true, List.mem_toFinset, List.mem_map]

theorem dictGroups_fold_spec (ld : List (Cell × Cell)) :
    ∀ (cells : List Cell) (acc : List (Cell × List Cell)),
      ((cells.foldl (fun a c => addToGroup a (root ld c) c) acc).map
          Prod.fst).toFinset =
        (acc.map Prod.fst).toFinset ∪ (cells.map (root ld)).toFinset ∧
      (cells.foldl (fun a c => addToGroup a (root ld c) c) acc).length +
          ((acc.map Prod.fst).toFinset).card =
        acc.length +
          ((acc.map Prod.fst).toFinset ∪ (cells.map (root ld)).toFinset).card := by
  intro cells
  induction cells with
  | nil => intro acc; simp
  | cons c t ih =>
    intro acc
    simp only [List.foldl_cons, List.map_cons, List.toFinset_cons]
    by_cases hk : acc.any (fun kv => kv.1 = root ld c)
    · obtain ⟨hkeys, hlen⟩ := addToGroup_keys_mem acc (root ld c) c hk
      obtain ⟨ih1, ih2⟩ := ih (addToGroup acc (root ld c) c)
      rw [hkeys] at ih1 ih2
      rw [hlen] at ih2
      have hr : root ld c ∈ (acc.map Prod.fst).toFinset := (any_key_iff acc _).mp hk
      have hunion : (acc.map Prod.fst).toFinset ∪
          insert (root ld c) (t.map (root ld)).toFinset =
          (acc.map Prod.fst).toFinset ∪ (t.map (root ld)).toFinset := by
        rw [Finset.union_insert, Finset.insert_eq_self.mpr (Finset.mem_union_left _ hr)]
      rw [hunion]
      exact ⟨ih1, ih2⟩
    · rw [addToGroup_keys_new acc (root ld c) c hk]
      obtain ⟨ih1, ih2⟩ := ih (acc ++ [(root ld c, [c])])
      have hkeys : ((acc ++ [(root ld c, [c])]).map Prod.fst).toFinset =
          insert (root ld c) (acc.map Prod.fst).toFinset := by
        ext z
        simp [List.mem_toFinset, or_comm]
      rw [hkeys] at ih1 ih2
      have hr : root ld c ∉ (acc.map Prod.fst).toFinset :=
        fun hmem => hk ((any_key_iff acc _).mpr hmem)
      have hcard : (insert (root ld c) (acc.map Prod.fst).toFinset).card =
          (acc.map Prod.fst).toFinset.card + 1 := Finset.card_insert_of_not_mem hr
      have hunion : insert (root ld c) (acc.map Prod.fst).toFinset ∪
          (t.map (root ld)).toFinset =
          (acc.map Prod.fst).toFinset ∪
            insert (root ld c) (t.map (root ld)).toFinset := by
        ext z
        simp only [Finset.mem_union, Finset.mem_insert]
        tauto
      constructor
      · rw [ih1, hunion]
      · have hL : (acc ++ [(root ld c, [c])]).length = acc.length + 1 := by simp
        rw [hL, hcard, hunion] at ih2
        omega

/-- The number of groups the analyzer reports is the number of distinct
leaders over the cells. -/
theorem analyzeMaze_groups_length (m : Maze) :
    (analyzeMaze m).groups.length = nGroups m.links m.cells := by
  show ((dictGroups (processLinks m.links) m.cells).map _).length = _
  rw [List.length_map]
  have := (dictGroups_fold_spec (processLinks m.links) m.cells []).2
  simpa [dictGroups, nGroups] using this

/-! ## Generator invariants -/

theorem draw_lt (amb : ℕ → ℕ) (r : Rng) (ambIdx len : ℕ) (h : 0 < len) :
    (draw amb r ambIdx len).1 < len := by
  cases r with
  | ambient =>
    show (amb ambIdx % 2 ^ 53) * len / 2 ^ 53 < len
    rw [Nat.div_lt_iff_lt_mul (by norm_num : 0 < 2 ^ 53)]
    calc (amb ambIdx % 2 ^ 53) * len < 2 ^ 53 * len :=
          (Nat.mul_lt_mul_right h).mpr (Nat.mod_lt _ (by norm_num))
      _ = len * 2 ^ 53 := Nat.mul_comm _ _
  | seeded inst =>
    show inst.next.1 * len / 2 ^ 32 < len
    rw [Nat.div_lt_iff_lt_mul (by norm_num : 0 < 2 ^ 32)]
    calc inst.next.1 * len < 2 ^ 32 * len :=
          (Nat.mul_lt_mul_right h).mpr (mulberryOut_lt _)
      _ = len * 2 ^ 32 := Nat.mul_comm _ _

/-- The invariant of a generator run that started from an empty maze:
the cells are the full grid, the links form a merge sequence with endpoints
among the cells, and the iteration count equals the number of links added. -/
structure GenInv (w h : ℕ) (st : GenState) : Prop where
  cells_eq : st.maze.cells = mkCells w h
  merge : MergeSeq st.maze.links
  ends : EndsIn st.maze.links st.maze.cells
  iter_eq : st.iterations = st.maze.links.length

theorem analyzeMaze_boundaries (m : Maze) :
    (analyzeMaze m).boundaries = boundariesOf (processLinks m.links) m := rfl

theorem genInv_init (w h : ℕ) (P : List ℕ) (rng : Rng) (ambIdx : ℕ) :
    GenInv w h
      { maze := freshMaze w h, seedQueue := P, rng := rng, ambIdx := ambIdx
        iterations := 0 } :=
  ⟨rfl, MergeSeq.nil, fun _l hl => absurd hl (List.not_mem_nil _), rfl⟩

theorem nGroups_init (w h : ℕ) : nGroups [] (mkCells w h) = w * h := by
  rw [nGroups_nil, card_mkCells]

/-- A non-empty boundary list puts at least two leaders in play. -/
theorem two_groups_of_boundaries_ne {st : GenState}
    (hb : (analyzeMaze st.maze).boundaries ≠ []) :
    2 ≤ nGroups st.maze.links st.maze.cells := by
  rw [analyzeMaze_boundaries] at hb
  rcases List.exists_mem_of_ne_nil _ hb with ⟨l, hl⟩
  obtain ⟨h1, h2, hroot, _⟩ := mem_boundariesOf hl
  refine Finset.one_lt_card.mpr ⟨root _ l.1, ?_, root _ l.2, ?_, fun e => hroot e.symm⟩
  · exact List.mem_toFinset.mpr (List.mem_map.mpr ⟨l.1, h1, rfl⟩)
  · exact List.mem_toFinset.mpr (List.mem_map.mpr ⟨l.2, h2, rfl⟩)

/-- With one leader left on a full grid, the boundary scan is empty. -/
theorem boundaries_nil_of_one_group {w h : ℕ} {st : GenState}
    (_inv : GenInv w h st)
    (hg : nGroups st.maze.links st.maze.cells ≤ 1) :
    (analyzeMaze st.maze).boundaries = [] := by
  rw [analyzeMaze_boundaries]
  refine (boundariesOf_eq_nil_iff _ _).mpr ?_
  intro c hc n _ hn
  have hall := Finset.card_le_one.mp hg
  exact hall _ (List.mem_toFinset.mpr (List.mem_map.mpr ⟨n, hn, rfl⟩))
    _ (List.mem_toFinset.mpr (List.mem_map.mpr ⟨c, hc, rfl⟩))

/-- Conversely, an empty boundary scan on a full grid means one leader. -/
theorem one_group_of_boundaries_nil {w h : ℕ} {st : GenState}
    (inv : GenInv w h st) (hw : 1 ≤ w) (hh : 1 ≤ h)
    (hb : (analyzeMaze st.maze).boundaries = []) :
    nGroups st.maze.links st.maze.cells = 1 := by
  rw [analyzeMaze_boundaries] at hb
  have H := (boundariesOf_eq_nil_iff _ _).mp hb
  rw [inv.cells_eq] at H
  have hsame : ∀ x y, x < w → y < h →
      root (processLinks st.maze.links) (x, y) =
        root (processLinks st.maze.links) (0, 0) := by
    refine grid_same_root _ ?_
    intro c hc n hn hnm
    exact H c hc n (by rcases hn with rfl | rfl <;> simp) hnm
  have h0 : ((0 : ℕ), (0 : ℕ)) ∈ mkCells w h := mem_mkCells.mpr ⟨hw, hh⟩
  unfold nGroups
  rw [inv.cells_eq]
  refine le_antisymm ?_ (Finset.card_pos.mpr ⟨root _ (0, 0),
    List.mem_toFinset.mpr (List.mem_map.mpr ⟨(0, 0), h0, rfl⟩)⟩)
  refine Finset.card_le_one.mpr ?_
  intro a ha b hbm
  rcases List.mem_map.mp (List.mem_toFinset.mp ha) with ⟨ca, hca, rfl⟩
  rcases List.mem_map.mp (List.mem_toFinset.mp hbm) with ⟨cb, hcb, rfl⟩
  have h1 := mem_mkCells.mp hca
  have h2 := mem_mkCells.mp hcb
  rw [show ca = (ca.1, ca.2) from rfl, show cb = (cb.1, cb.2) from rfl,
    hsame ca.1 ca.2 h1.1 h1.2, hsame cb.1 cb.2 h2.1 h2.2]

/-- One generator step on a non-empty boundary list preserves the invariant
and merges exactly one pair of groups. -/
theorem genStep_inv {w h : ℕ} {st : GenState} (inv : GenInv w h st)
    (amb : ℕ → ℕ) (hb : (analyzeMaze st.maze).boundaries ≠ []) :
    GenInv w h (genStep amb st (analyzeMaze st.maze).boundaries).1 ∧
    nGroups st.maze.links st.maze.cells =
      nGroups (genStep amb st (analyzeMaze st.maze).boundaries).1.maze.links
        (genStep amb st (analyzeMaze st.maze).boundaries).1.maze.cells + 1 := by
  set bs := (analyzeMaze st.maze).boundaries with hbs
  have hlen : 0 < bs.length := List.length_pos.mpr hb
  set pq : Option ℕ × List ℕ × Rng :=
    (match st.seedQueue.getLast? with
     | some seed => (some seed, st.seedQueue.dropLast, Rng.seeded (Random.init seed))
     | none => (none, st.seedQueue, st.rng)) with hpq
  set idx := (draw amb pq.2.2 st.ambIdx bs.length).1 with hidx
  have hidxlt : idx < bs.length := draw_lt _ _ _ _ hlen
  have hl : bs.getD idx ((0, 0), (0, 0)) ∈ bs := by
    rw [List.getD_eq_getElem?_getD, List.getElem?_eq_getElem hidxlt]
    exact List.getElem_mem hidxlt
  set l := bs.getD idx ((0, 0), (0, 0)) with hldef
  have hl2 : l ∈ boundariesOf (processLinks st.maze.links) st.maze := by
    rw [hldef, hbs]
    rw [hbs, analyzeMaze_boundaries] at hl
    exact hl
  obtain ⟨h1, h2, hroot, _⟩ := mem_boundariesOf hl2
  have hnc : ¬ Conn st.maze.links l.1 l.2 := fun hc =>
    hroot (((inv.merge.good).rootChar l.1 l.2).mpr hc).symm
  have hnotmem : (l.1, l.2) ∉ st.maze.links := fun hm => hnc (Conn.rel hm)
  have hmaze : (genStep amb st bs).1.maze = addLink st.maze l.1 l.2 := rfl
  have hlinks : (addLink st.maze l.1 l.2).links = st.maze.links ++ [(l.1, l.2)] := by
    unfold addLink
    simp [hnotmem]
  have hcells : (addLink st.maze l.1 l.2).cells = st.maze.cells := rfl
  constructor
  · refine ⟨?_, ?_, ?_, ?_⟩
    · rw [hmaze, hcells, inv.cells_eq]
    · rw [hmaze, hlinks]
      exact inv.merge.snoc hnc
    · rw [hmaze, hlinks, hcells]
      intro lk hlk
      rcases List.mem_append.mp hlk with hin | hone
      · exact inv.ends lk hin
      · rcases List.mem_singleton.mp hone with rfl
        exact ⟨h1, h2⟩
    · show st.iterations + 1 = _
      rw [hmaze, hlinks, List.length_append, List.length_singleton, inv.iter_eq]
  · rw [hmaze, hlinks, hcells]
    exact nGroups_merge inv.merge hnc h1 h2

/-! ## Generation loop lemmas -/

theorem capReached_none (i : ℕ) : capReached none i = false := rfl

theorem genLoop_succ (amb : ℕ → ℕ) (maxIter : Option ℕ) (fuel : ℕ)
    (st : GenState) :
    genLoop amb maxIter (fuel + 1) st =
      if (analyzeMaze st.maze).boundaries = [] ∨ capReached maxIter st.iterations
      then some (st, [])
      else
        match genLoop amb maxIter fuel
            (genStep amb st (analyzeMaze st.maze).boundaries).1 with
        | none => none
        | some (stF, tr) =>
            some (stF, (genStep amb st (analyzeMaze st.maze).boundaries).2 :: tr) := rfl

/-- With no iteration cap and enough fuel, the loop runs to an empty
boundary list, preserving the invariant. -/
theorem genLoop_spec (w h : ℕ) (amb : ℕ → ℕ) :
    ∀ n fuel st, GenInv w h st →
      nGroups st.maze.links st.maze.cells ≤ n + 1 → n < fuel →
      ∃ stF tr, genLoop amb none fuel st = some (stF, tr) ∧
        GenInv w h stF ∧ (analyzeMaze stF.maze).boundaries = [] := by
  intro n
  induction n with
  | zero =>
    intro fuel st inv hn hf
    cases fuel with
    | zero => omega
    | succ f =>
      have hb : (analyzeMaze st.maze).boundaries = [] :=
        boundaries_nil_of_one_group inv hn
      rw [genLoop_succ, if_pos (Or.inl hb)]
      exact ⟨st, [], rfl, inv, hb⟩
  | succ n ih =>
    intro fuel st inv hn hf
    cases fuel with
    | zero => omega
    | succ f =>
      by_cases hb : (analyzeMaze st.maze).boundaries = []
      · rw [genLoop_succ, if_pos (Or.inl hb)]
        exact ⟨st, [], rfl, inv, hb⟩
      · obtain ⟨inv', hcount⟩ := genStep_inv inv amb hb
        obtain ⟨stF, tr, hrun, hinvF, hbF⟩ :=
          ih f (genStep amb st (analyzeMaze st.maze).boundaries).1 inv'
            (by omega) (by omega)
        rw [genLoop_succ, if_neg (by simp [hb, capReached_none]), hrun]
        exact ⟨stF, _, rfl, hinvF, hbF⟩

/-- The observable part of the state: everything except the ambient
cursor. -/
def stKey (st : GenState) : Maze × List ℕ × Rng × ℕ :=
  (st.maze, st.seedQueue, st.rng, st.iterations)

/-- `genStep` when the seed queue is non-empty: pop the last seed, reseed,
and draw from the fresh instance. -/
theorem genStep_pop {st : GenState} {seed : ℕ}
    (hseed : st.seedQueue.getLast? = some seed) (amb : ℕ → ℕ) (bs : List Link) :
    genStep amb st bs =
      ({ maze := addLink st.maze
            (bs.getD ((Random.init seed).next.1 * bs.length / 2 ^ 32)
              ((0, 0), (0, 0))).1
            (bs.getD ((Random.init seed).next.1 * bs.length / 2 ^ 32)
              ((0, 0), (0, 0))).2
         seedQueue := st.seedQueue.dropLast
         rng := Rng.seeded (Random.init seed).next.2
         ambIdx := st.ambIdx
         iterations := st.iterations + 1 },
       (some seed, Rng.seeded (Random.init seed))) := by
  unfold genStep
  rw [hseed]
  rfl

/-- `genStep` when the seed queue is empty: keep the current source. -/
theorem genStep_nopop {st : GenState}
    (hseed : st.seedQueue.getLast? = none) (amb : ℕ → ℕ) (bs : List Link) :
    genStep amb st bs =
      ({ maze := addLink st.maze
            (bs.getD (draw amb st.rng st.ambIdx bs.length).1 ((0, 0), (0, 0))).1
            (bs.getD (draw amb st.rng st.ambIdx bs.length).1 ((0, 0), (0, 0))).2
         seedQueue := st.seedQueue
         rng := (draw amb st.rng st.ambIdx bs.length).2.1
         ambIdx := (draw amb st.rng st.ambIdx bs.length).2.2
         iterations := st.iterations + 1 },
       (none, st.rng)) := by
  unfold genStep
  rw [hseed]

/-- While the seed queue outlasts the remaining merges, the run never
consults the ambient source: two runs over different ambient streams agree
on everything except the ambient cursor. -/
theorem genLoop_det (w h : ℕ) (amb1 amb2 : ℕ → ℕ) :
    ∀ fuel st1 st2, stKey st1 = stKey st2 → GenInv w h st1 →
      nGroups st1.maze.links st1.maze.cells ≤ st1.seedQueue.length + 1 →
      (genLoop amb1 none fuel st1).map (fun p => (stKey p.1, p.2)) =
        (genLoop amb2 none fuel st2).map (fun p => (stKey p.1, p.2)) := by
  intro fuel
  induction fuel with
  | zero => intro st1 st2 _ _ _; rfl
  | succ f ih =>
    intro st1 st2 hkey inv hq
    have hm : st1.maze = st2.maze := congrArg Prod.fst hkey
    have hqeq : st1.seedQueue = st2.seedQueue :=
      congrArg (fun p => p.2.1) hkey
    have hit : st1.iterations = st2.iterations :=
      congrArg (fun p => p.2.2.2) hkey
    rw [genLoop_succ, genLoop_succ, ← hm, ← hit]
    by_cases hb : (analyzeMaze st1.maze).boundaries = []
    · rw [if_pos (Or.inl hb), if_pos (Or.inl hb)]
      simp [hkey]
    · have hcond : ¬ ((analyzeMaze st1.maze).boundaries = [] ∨
          (capReached none st1.iterations : Prop)) := by
        simp [hb, capReached_none]
      rw [if_neg hcond, if_neg hcond]
      have h2g := two_groups_of_boundaries_ne hb
      have hqne : st1.seedQueue ≠ [] := by
        intro he
        rw [he] at hq
        simp at hq
        omega
      have hqlen : 1 ≤ st1.seedQueue.length := by
        cases hql : st1.seedQueue with
        | nil => exact absurd hql hqne
        | cons a t => simp
      obtain ⟨seed, hseed⟩ := Option.isSome_iff_exists.mp
        (List.getLast?_isSome.mpr hqne)
      have hseed2 : st2.seedQueue.getLast? = some seed := by
        rw [← hqeq]; exact hseed
      obtain ⟨inv', hcount⟩ := genStep_inv inv amb1 hb
      set bs := (analyzeMaze st1.maze).boundaries with hbs
      have hkey' : stKey (genStep amb1 st1 bs).1 = stKey (genStep amb2 st2 bs).1 ∧
          (genStep amb1 st1 bs).2 = (genStep amb2 st2 bs).2 := by
        rw [genStep_pop hseed amb1 bs, genStep_pop hseed2 amb2 bs]
        refine ⟨?_, rfl⟩
        unfold stKey
        rw [hm, hqeq, hit]
      have hq' : nGroups (genStep amb1 st1 bs).1.maze.links
          (genStep amb1 st1 bs).1.maze.cells ≤
          (genStep amb1 st1 bs).1.seedQueue.length + 1 := by
        have hql : (genStep amb1 st1 bs).1.seedQueue = st1.seedQueue.dropLast := by
          rw [genStep_pop hseed amb1 bs]
        rw [hql, List.length_dropLast]
        omega
      have hsub := ih (genStep amb1 st1 bs).1 (genStep amb2 st2 bs).1
        hkey'.1 inv' hq'
      cases hsub1 : genLoop amb1 none f (genStep amb1 st1 bs).1 with
      | none =>
        rw [hsub1] at hsub
        cases hsub2 : genLoop amb2 none f (genStep amb2 st2 bs).1 with
        | none => rfl
        | some p =>
          rw [hsub2] at hsub
          exact absurd hsub (by simp)
      | some p1 =>
        rw [hsub1] at hsub
        cases hsub2 : genLoop amb2 none f (genStep amb2 st2 bs).1 with
        | none =>
          rw [hsub2] at hsub
          exact absurd hsub (by simp)
        | some p2 =>
          rw [hsub2] at hsub
          obtain ⟨s1, t1⟩ := p1
          obtain ⟨s2, t2⟩ := p2
          simp only [Option.map_some'] at hsub
          show Option.map _ (some (s1, (genStep amb1 st1 bs).2 :: t1)) =
            Option.map _ (some (s2, (genStep amb2 st2 bs).2 :: t2))
          simp only [Option.map_some']
          have h1 : stKey s1 = stKey s2 := congrArg Prod.fst (Option.some.inj hsub)
          have h2 : t1 = t2 := congrArg Prod.snd (Option.some.inj hsub)
          rw [h1, h2, hkey'.2]

/-! ## Trace lemmas: which seed is popped when, and which source is active -/

theorem getLast?_eq_getD {q : List ℕ} {s : ℕ} (h : q.getLast? = some s) :
    s = q.getD (q.length - 1) 0 := by
  rw [List.getD_eq_getElem?_getD, ← List.getLast?_eq_getElem?, h]
  rfl

theorem dropLast_getD {q : List ℕ} {j : ℕ} (h : j < q.length - 1) :
    q.dropLast.getD j 0 = q.getD j 0 := by
  rw [List.getD_eq_getElem?_getD, List.getD_eq_getElem?_getD,
    List.getElem?_dropLast, if_pos h]

/-- The seed popped at executed iteration `i` is packet entry
`length − 1 − i` (tail-first consumption), and nothing is popped once the
packet is exhausted. -/
theorem genLoop_trace_pop (amb : ℕ → ℕ) (maxIter : Option ℕ) :
    ∀ fuel st stF tr, genLoop amb maxIter fuel st = some (stF, tr) →
      ∀ i, i < tr.length →
        (tr.getD i (none, Rng.ambient)).1 =
          if i < st.seedQueue.length
          then some (st.seedQueue.getD (st.seedQueue.length - 1 - i) 0)
          else none := by
  intro fuel
  induction fuel with
  | zero => intro st stF tr h; exact absurd h (by simp [genLoop])
  | succ f ih =>
    intro st stF tr h i hi
    rw [genLoop_succ] at h
    by_cases hc : (analyzeMaze st.maze).boundaries = [] ∨
        (capReached maxIter st.iterations : Prop)
    · rw [if_pos hc] at h
      cases h
      simp at hi
    · rw [if_neg hc] at h
      cases hsub : genLoop amb maxIter f
          (genStep amb st (analyzeMaze st.maze).boundaries).1 with
      | none => rw [hsub] at h; exact absurd h (by simp)
      | some p =>
        rw [hsub] at h
        obtain ⟨s1, t1⟩ := p
        have he : stF = s1 ∧
            tr = (genStep amb st (analyzeMaze st.maze).boundaries).2 :: t1 := by
          cases h
          exact ⟨rfl, rfl⟩
        obtain ⟨rfl, rfl⟩ := he
        cases hql : st.seedQueue.getLast? with
        | none =>
          have hq0 : st.seedQueue = [] := by
            by_contra hne
            rw [(List.getLast?_isSome.mpr hne : st.seedQueue.getLast?.isSome = true)
              |> Option.isSome_iff_exists.mp |>.choose_spec] at hql
            exact Option.noConfusion hql
          rw [genStep_nopop hql amb] at *
          cases i with
          | zero => simp [hq0]
          | succ j =>
            have hj : j < t1.length := by simpa using hi
            have := ih _ _ _ hsub j hj
            simp only [List.getD_cons_succ]
            rw [this]
            simp [hq0]
        | some seed =>
          have hqlen : 1 ≤ st.seedQueue.length := by
            cases hq : st.seedQueue with
            | nil => rw [hq] at hql; exact absurd hql (by simp)
            | cons a t => simp
          rw [genStep_pop hql amb] at *
          cases i with
          | zero =>
            simp only [List.getD_cons_zero, Nat.sub_zero]
            rw [if_pos (by omega)]
            exact congrArg some (getLast?_eq_getD hql)
          | succ j =>
            have hj : j < t1.length := by simpa using hi
            have hrec := ih _ _ _ hsub j hj
            simp only [List.getD_cons_succ]
            rw [hrec]
            simp only [List.length_dropLast]
            by_cases hjq : j < st.seedQueue.length - 1
            · rw [if_pos hjq, if_pos (by omega)]
              rw [dropLast_getD (by omega)]
              congr 2
              omega
            · rw [if_neg hjq, if_neg (by omega)]

/-- Once any seed has been consumed the active source is (and stays) a
seeded instance; it never reverts to the ambient source. -/
theorem genLoop_trace_seeded (amb : ℕ → ℕ) (maxIter : Option ℕ) :
    ∀ fuel st stF tr, genLoop amb maxIter fuel st = some (stF, tr) →
      (st.seedQueue ≠ [] ∨ st.rng ≠ Rng.ambient) →
      ∀ i, i < tr.length → (tr.getD i (none, Rng.ambient)).2 ≠ Rng.ambient := by
  intro fuel
  induction fuel with
  | zero => intro st stF tr h; exact absurd h (by simp [genLoop])
  | succ f ih =>
    intro st stF tr h hst i hi
    rw [genLoop_succ] at h
    by_cases hc : (analyzeMaze st.maze).boundaries = [] ∨
        (capReached maxIter st.iterations : Prop)
    · rw [if_pos hc] at h
      cases h
      simp at hi
    · rw [if_neg hc] at h
      cases hsub : genLoop amb maxIter f
          (genStep amb st (analyzeMaze st.maze).boundaries).1 with
      | none => rw [hsub] at h; exact absurd h (by simp)
      | some p =>
        rw [hsub] at h
        obtain ⟨s1, t1⟩ := p
        have he : stF = s1 ∧
            tr = (genStep amb st (analyzeMaze st.maze).boundaries).2 :: t1 := by
          cases h
          exact ⟨rfl, rfl⟩
        obtain ⟨rfl, rfl⟩ := he
        cases hql : st.seedQueue.getLast? with
        | none =>
          have hq0 : st.seedQueue = [] := by
            by_contra hne
            rw [(List.getLast?_isSome.mpr hne : st.seedQueue.getLast?.isSome = true)
              |> Option.isSome_iff_exists.mp |>.choose_spec] at hql
            exact Option.noConfusion hql
          have hrng : st.rng ≠ Rng.ambient := by
            rcases hst with hq | hr
            · exact absurd hq0 hq
            · exact hr
          obtain ⟨inst, hinst⟩ : ∃ inst, st.rng = Rng.seeded inst := by
            cases hr : st.rng with
            | ambient => exact absurd hr hrng
            | seeded inst => exact ⟨inst, rfl⟩
          rw [genStep_nopop hql amb] at *
          cases i with
          | zero =>
            simp only [List.getD_cons_zero]
            exact hrng
          | succ j =>
            have hj : j < t1.length := by simpa using hi
            refine ih _ _ _ hsub ?_ j hj
            refine Or.inr ?_
            show (draw amb st.rng st.ambIdx _).2.1 ≠ Rng.ambient
            rw [hinst]
            simp [draw]
        | some seed =>
          rw [genStep_pop hql amb] at *
          cases i with
          | zero => simp
          | succ j =>
            have hj : j < t1.length := by simpa using hi
            refine ih _ _ _ hsub (Or.inr (by simp)) j hj

/-- With an empty packet from the start, every iteration draws from the
ambient source. -/
theorem genLoop_trace_ambient (amb : ℕ → ℕ) (maxIter : Option ℕ) :
    ∀ fuel st stF tr, genLoop amb maxIter fuel st = some (stF, tr) →
      st.seedQueue = [] → st.rng = Rng.ambient →
      ∀ i, i < tr.length → (tr.getD i (none, Rng.ambient)).2 = Rng.ambient := by
  intro fuel
  induction fuel with
  | zero => intro st stF tr h; exact absurd h (by simp [genLoop])
  | succ f ih =>
    intro st stF tr h hq0 hrng i hi
    rw [genLoop_succ] at h
    by_cases hc : (analyzeMaze st.maze).boundaries = [] ∨
        (capReached maxIter st.iterations : Prop)
    · rw [if_pos hc] at h
      cases h
      simp at hi
    · rw [if_neg hc] at h
      cases hsub : genLoop amb maxIter f
          (genStep amb st (analyzeMaze st.maze).boundaries).1 with
      | none => rw [hsub] at h; exact absurd h (by simp)
      | some p =>
        rw [hsub] at h
        obtain ⟨s1, t1⟩ := p
        have he : stF = s1 ∧
            tr = (genStep amb st (analyzeMaze st.maze).boundaries).2 :: t1 := by
          cases h
          exact ⟨rfl, rfl⟩
        obtain ⟨rfl, rfl⟩ := he
        have hql : st.seedQueue.getLast? = none := by rw [hq0]; rfl
        rw [genStep_nopop hql amb] at *
        cases i with
        | zero =>
          simp only [List.getD_cons_zero]
          exact hrng
        | succ j =>
          have hj : j < t1.length := by simpa using hi
          refine ih _ _ _ hsub hq0 ?_ j hj
          show (draw amb st.rng st.ambIdx _).2.1 = Rng.ambient
          rw [hrng]
          rfl

/-- While the packet lasts, the active source at iteration `i` is a fresh
instance seeded from packet entry `length − 1 − i`. -/
theorem genLoop_trace_fresh (amb : ℕ → ℕ) (maxIter : Option ℕ) :
    ∀ fuel st stF tr, genLoop amb maxIter fuel st = some (stF, tr) →
      ∀ i, i < tr.length → i < st.seedQueue.length →
        (tr.getD i (none, Rng.ambient)).2 =
          Rng.seeded (Random.init
            (st.seedQueue.getD (st.seedQueue.length - 1 - i) 0)) := by
  intro fuel
  induction fuel with
  | zero => intro st stF tr h; exact absurd h (by simp [genLoop])
  | succ f ih =>
    intro st stF tr h i hi hiq
    rw [genLoop_succ] at h
    by_cases hc : (analyzeMaze st.maze).boundaries = [] ∨
        (capReached maxIter st.iterations : Prop)
    · rw [if_pos hc] at h
      cases h
      simp at hi
    · rw [if_neg hc] at h
      cases hsub : genLoop amb maxIter f
          (genStep amb st (analyzeMaze st.maze).boundaries).1 with
      | none => rw [hsub] at h; exact absurd h (by simp)
      | some p =>
        rw [hsub] at h
        obtain ⟨s1, t1⟩ := p
        have he : stF = s1 ∧
            tr = (genStep amb st (analyzeMaze st.maze).boundaries).2 :: t1 := by
          cases h
          exact ⟨rfl, rfl⟩
        obtain ⟨rfl, rfl⟩ := he
        have hqne : st.seedQueue ≠ [] := by
          intro he2
          rw [he2] at hiq
          simp at hiq
        obtain ⟨seed, hql⟩ := Option.isSome_iff_exists.mp
          (List.getLast?_isSome.mpr hqne)
        have hqlen : 1 ≤ st.seedQueue.length := by
          cases hq : st.seedQueue with
          | nil => exact absurd hq hqne
          | cons a t => simp
        rw [genStep_pop hql amb] at *
        cases i with
        | zero =>
          simp only [List.getD_cons_zero, Nat.sub_zero]
          rw [getLast?_eq_getD hql]
        | succ j =>
          have hj : j < t1.length := by simpa using hi
          have hjq : j < st.seedQueue.dropLast.length := by
            simp only [List.length_dropLast]
            omega
          have hrec := ih _ _ _ hsub j hj (by simpa using hjq)
          simp only [List.getD_cons_succ]
          rw [hrec]
          simp only [List.length_dropLast]
          rw [dropLast_getD (by omega)]
          congr 3
          omega

/-! ## Master theorems about `generateRandomMaze` on a fresh maze -/

theorem generate_fresh_run (w h : ℕ) (hw : 1 ≤ w) (hh : 1 ≤ h)
    (P : List ℕ) (amb : ℕ → ℕ) (i0 : ℕ) :
    ∃ r, (generateRandomMaze { width := w, height := h, seedPacket := P }
        amb i0).run = some r ∧
      (analyzeMaze r.maze).boundaries = [] ∧
      (analyzeMaze r.maze).groups.length = 1 ∧
      r.maze.links.length = w * h - 1 ∧
      r.completed = true ∧
      r.iterations = w * h - 1 ∧
      r.maze.cells = mkCells w h := by
  have hwh : 1 ≤ w * h := Nat.mul_pos hw hh
  have hlen : (freshMaze w h).cells.length = w * h := length_mkCells w h
  obtain ⟨stF, tr, hrun, invF, hbF⟩ := genLoop_spec w h amb (w * h - 1)
    ((freshMaze w h).cells.length + 1)
    { maze := freshMaze w h, seedQueue := P, rng := .ambient, ambIdx := i0
      iterations := 0 }
    (genInv_init w h P _ i0)
    (by
      show nGroups (freshMaze w h).links (freshMaze w h).cells ≤ _
      have : nGroups [] (mkCells w h) = w * h := nGroups_init w h
      show nGroups [] (mkCells w h) ≤ _
      omega)
    (by omega)
  have hone : nGroups stF.maze.links stF.maze.cells = 1 :=
    one_group_of_boundaries_nil invF hw hh hbF
  have hcount := mergeSeq_count invF.merge invF.ends
  rw [invF.cells_eq, card_mkCells] at hcount
  have hnG : nGroups stF.maze.links stF.maze.cells =
      nGroups stF.maze.links (mkCells w h) := by rw [invF.cells_eq]
  refine ⟨{ maze := stF.maze
            completed := (analyzeMaze stF.maze).boundaries.isEmpty
            iterations := stF.iterations
            trace := tr
            ambFinal := stF.ambIdx }, ?_, hbF, ?_, ?_, ?_, ?_, invF.cells_eq⟩
  · show (generateRandomMaze _ _ _).run = _
    unfold generateRandomMaze
    simp only []
    rw [hrun]
  · rw [analyzeMaze_groups_length, hone]
  · show stF.maze.links.length = w * h - 1
    rw [← hnG] at hcount
    omega
  · simp [hbF]
  · show stF.iterations = w * h - 1
    rw [invF.iter_eq]
    rw [← hnG] at hcount
    omega

theorem generate_fresh_det (w h : ℕ) (hw : 1 ≤ w) (hh : 1 ≤ h)
    (P : List ℕ) (hP : w * h - 1 ≤ P.length)
    (amb1 amb2 : ℕ → ℕ) (i1 i2 : ℕ) :
    ∃ r1 r2,
      (generateRandomMaze { width := w, height := h, seedPacket := P }
        amb1 i1).run = some r1 ∧
      (generateRandomMaze { width := w, height := h, seedPacket := P }
        amb2 i2).run = some r2 ∧
      r1.maze = r2.maze ∧ r1.completed = r2.completed ∧
      r1.iterations = r2.iterations ∧ r1.trace = r2.trace := by
  have hwh : 1 ≤ w * h := Nat.mul_pos hw hh
  obtain ⟨r1, hr1, _, _, _, _, _, _⟩ := generate_fresh_run w h hw hh P amb1 i1
  obtain ⟨r2, hr2, _, _, _, _, _, _⟩ := generate_fresh_run w h hw hh P amb2 i2
  set st1 : GenState :=
    { maze := freshMaze w h, seedQueue := P, rng := .ambient, ambIdx := i1
      iterations := 0 } with hst1
  set st2 : GenState :=
    { maze := freshMaze w h, seedQueue := P, rng := .ambient, ambIdx := i2
      iterations := 0 } with hst2
  have hdet := genLoop_det w h amb1 amb2 ((freshMaze w h).cells.length + 1)
    st1 st2 rfl (genInv_init w h P _ i1)
    (by
      show nGroups [] (mkCells w h) ≤ P.length + 1
      rw [nGroups_init]
      omega)
  -- extract the underlying loop results from the two runs
  cases hsub1 : genLoop amb1 none ((freshMaze w h).cells.length + 1) st1 with
  | none =>
    exfalso
    revert hr1
    unfold generateRandomMaze
    simp only []
    rw [hsub1]
    simp
  | some p1 =>
    cases hsub2 : genLoop amb2 none ((freshMaze w h).cells.length + 1) st2 with
    | none =>
      exfalso
      revert hr2
      unfold generateRandomMaze
      simp only []
      rw [hsub2]
      simp
    | some p2 =>
      rw [hsub1, hsub2] at hdet
      obtain ⟨sF1, t1⟩ := p1
      obtain ⟨sF2, t2⟩ := p2
      simp only [Option.map_some'] at hdet
      have hk : stKey sF1 = stKey sF2 :=
        congrArg Prod.fst (Option.some.inj hdet)
      have ht : t1 = t2 := congrArg Prod.snd (Option.some.inj hdet)
      have hm : sF1.maze = sF2.maze := congrArg Prod.fst hk
      have hi : sF1.iterations = sF2.iterations :=
        congrArg (fun p => p.2.2.2) hk
      have hr1' : r1 = { maze := sF1.maze,
                         completed := (analyzeMaze sF1.maze).boundaries.isEmpty,
                         iterations := sF1.iterations, trace := t1,
                         ambFinal := sF1.ambIdx } := by
        revert hr1
        unfold generateRandomMaze
        simp only []
        rw [hsub1]
        intro hr1
        exact (Option.some.inj hr1).symm
      have hr2' : r2 = { maze := sF2.maze,
                         completed := (analyzeMaze sF2.maze).boundaries.isEmpty,
                         iterations := sF2.iterations, trace := t2,
                         ambFinal := sF2.ambIdx } := by
        revert hr2
        unfold generateRandomMaze
        simp only []
        rw [hsub2]
        intro hr2
        exact (Option.some.inj hr2).symm
      refine ⟨r1, r2, hr1, hr2, ?_, ?_, ?_, ?_⟩ <;>
        rw [hr1', hr2']
      · exact hm
      · simp [hm]
      · exact hi
      · exact ht

/-! ## BFS solver theory -/

/-- A link-adjacent path from `start` to `c` (as the solver walks them:
head first, endpoint last). -/
def PathTo (m : Maze) (c : Cell) (p : List Cell) : Prop :=
  p.head? = some m.start ∧ p.getLast? = some c ∧
    List.Chain' (fun a b => b ∈ adjOf m a) p

/-- The endpoint the solver reads: `path[path.length - 1]`. -/
def qEnd (p : List Cell) : Cell := p.getLastD (0, 0)

theorem adj_mem {m : Maze} {a b : Cell} (h : b ∈ adjOf m a) :
    a ∈ m.cells ∧ b ∈ m.cells := by
  unfold adjOf at h
  by_cases ha : a ∈ m.cells
  · rw [if_pos ha] at h
    refine ⟨ha, ?_⟩
    rcases List.mem_flatMap.mp h with ⟨l, _, hin⟩
    by_cases hc : l.1 ∈ m.cells ∧ l.2 ∈ m.cells
    · rw [if_pos hc] at hin
      rcases List.mem_append.mp hin with h1 | h2
      · by_cases h1c : l.1 = a
        · rw [if_pos h1c] at h1
          rcases List.mem_singleton.mp h1 with rfl
          exact hc.2
        · rw [if_neg h1c] at h1
          exact absurd h1 (List.not_mem_nil _)
      · by_cases h2c : l.2 = a
        · rw [if_pos h2c] at h2
          rcases List.mem_singleton.mp h2 with rfl
          exact hc.1
        · rw [if_neg h2c] at h2
          exact absurd h2 (List.not_mem_nil _)
    · rw [if_neg hc] at hin
      exact absurd hin (List.not_mem_nil _)
  · rw [if_neg ha] at h
    exact absurd h (List.not_mem_nil _)

theorem pathTo_ne_nil {m : Maze} {c : Cell} {p : List Cell}
    (h : PathTo m c p) : p ≠ [] := by
  intro he
  rw [he] at h
  exact Option.noConfusion h.1

theorem pathTo_qEnd {m : Maze} {c : Cell} {p : List Cell}
    (h : PathTo m c p) : qEnd p = c := by
  unfold qEnd
  rw [List.getLastD_eq_getLast?, h.2.1]
  rfl

theorem pathTo_one (m : Maze) :
    PathTo m m.start [m.start] :=
  ⟨rfl, rfl, List.chain'_singleton _⟩

theorem pathTo_extend {m : Maze} {c n : Cell} {p : List Cell}
    (h : PathTo m c p) (hn : n ∈ adjOf m c) : PathTo m n (p ++ [n]) := by
  obtain ⟨h1, h2, h3⟩ := h
  refine ⟨?_, List.getLast?_concat _, ?_⟩
  · rw [List.head?_append, h1]
    rfl
  · rw [List.chain'_append]
    refine ⟨h3, List.chain'_singleton _, ?_⟩
    intro x hx y hy
    rw [h2] at hx
    cases hx
    cases hy
    exact hn

theorem pathTo_len_one {m : Maze} {c : Cell} {p : List Cell}
    (h : PathTo m c p) (hl : p.length = 1) : c = m.start ∧ p = [m.start] := by
  rcases p with _ | ⟨a, t⟩
  · exact absurd rfl (pathTo_ne_nil h)
  · rcases t with _ | ⟨b, t2⟩
    · have h1 : a = m.start := Option.some.inj h.1
      have h2 : a = c := Option.some.inj h.2.1
      exact ⟨h2 ▸ h1 ▸ rfl, by rw [h1]⟩
    · simp at hl

theorem pathTo_decompose {m : Maze} {c : Cell} {p : List Cell}
    (h : PathTo m c p) (hl : 2 ≤ p.length) :
    ∃ p0 c0, p = p0 ++ [c] ∧ PathTo m c0 p0 ∧ c ∈ adjOf m c0 ∧
      p0.length + 1 = p.length := by
  obtain ⟨h1, h2, h3⟩ := h
  have hne : p ≠ [] := by intro he; rw [he] at h1; exact Option.noConfusion h1
  have hsplit : p.dropLast ++ [p.getLast hne] = p :=
    List.dropLast_concat_getLast hne
  have hlast : p.getLast hne = c := by
    have := List.getLast?_eq_getLast p hne ▸ h2
    exact Option.some.inj this.symm |>.symm
  have hdl : p.dropLast ≠ [] := by
    intro he
    have h5 : p.dropLast.length = p.length - 1 := by simp
    rw [he] at h5
    simp at h5
    omega
  have hdlne : p.dropLast.getLast? = some (p.dropLast.getLast hdl) :=
    List.getLast?_eq_getLast _ _
  refine ⟨p.dropLast, p.dropLast.getLast hdl, by rw [← hlast, hsplit], ⟨?_, hdlne, ?_⟩, ?_, ?_⟩
  · rw [← hsplit, List.head?_append] at h1
    cases hh : p.dropLast.head? with
    | none => exact absurd hh (by simp [hdl])
    | some x =>
      rw [hh] at h1
      simp only [Option.or_some] at h1
      exact h1
  · rw [← hsplit, List.chain'_append] at h3
    exact h3.1
  · rw [← hsplit, List.chain'_append] at h3
    refine h3.2.2 _ ?_ c ?_
    · rw [hdlne]
      rfl
    · rw [hlast]
      rfl
  · have h6 : p.dropLast.length = p.length - 1 := by simp
    omega

/-- Reachable cells lie in any adjacency-closed visited set containing
`start`. -/
theorem pathTo_closed {m : Maze} {V : List Cell}
    (hstart : m.start ∈ V)
    (hclosed : ∀ c ∈ V, ∀ n ∈ adjOf m c, n ∈ V) :
    ∀ k p c, p.length ≤ k → PathTo m c p → c ∈ V := by
  intro k
  induction k with
  | zero =>
    intro p c hl h
    have := pathTo_ne_nil h
    cases p with
    | nil => exact absurd rfl this
    | cons a t => simp at hl
  | succ k ih =>
    intro p c hl h
    by_cases h1 : p.length = 1
    · obtain ⟨rfl, _⟩ := pathTo_len_one h h1
      exact hstart
    · have h2 : 2 ≤ p.length := by
        have := pathTo_ne_nil h
        cases p with
        | nil => exact absurd rfl this
        | cons a t =>
          cases t with
          | nil => simp at h1
          | cons b t2 => simp
      obtain ⟨p0, c0, _, hp0, hadj, hlen⟩ := pathTo_decompose h h2
      exact hclosed c0 (ih p0 c0 (by omega) hp0) c hadj

theorem nodup_sub_length {V cells : List Cell} (h : V.Nodup)
    (hs : ∀ c ∈ V, c ∈ cells) : V.length ≤ cells.length := by
  have h1 : V.toFinset.card = V.length := by
    rw [List.card_toFinset, h.dedup]
  have h2 : V.toFinset ⊆ cells.toFinset := by
    intro x hx
    exact List.mem_toFinset.mpr (hs x (List.mem_toFinset.mp hx))
  calc V.length = V.toFinset.card := h1.symm
    _ ≤ cells.toFinset.card := Finset.card_le_card h2
    _ ≤ cells.length := List.toFinset_card_le _

/-- The neighbors actually enqueued by the neighbor loop: first occurrences
not yet visited, in encounter order. -/
def freshOf (V : List Cell) : List Cell → List Cell
  | [] => []
  | n :: t => if n ∈ V then freshOf V t else n :: freshOf (n :: V) t

theorem bfsExpand_fold (path : List Cell) :
    ∀ ns V rest, ns.foldl (bfsExpand path) (V, rest) =
      ((freshOf V ns).reverse ++ V,
        rest ++ (freshOf V ns).map (fun n => path ++ [n])) := by
  intro ns
  induction ns with
  | nil => intro V rest; simp [freshOf]
  | cons n t ih =>
    intro V rest
    show List.foldl (bfsExpand path) (bfsExpand path (V, rest) n) t = _
    by_cases hn : n ∈ V
    · have hstep : bfsExpand path (V, rest) n = (V, rest) := by
        unfold bfsExpand
        rw [if_pos hn]
      have hfr : freshOf V (n :: t) =
          if n ∈ V then freshOf V t else n :: freshOf (n :: V) t := rfl
      rw [hstep, ih V rest, hfr, if_pos hn]
    · have hstep : bfsExpand path (V, rest) n = (n :: V, rest ++ [path ++ [n]]) := by
        unfold bfsExpand
        rw [if_neg hn]
      have hfr : freshOf V (n :: t) =
          if n ∈ V then freshOf V t else n :: freshOf (n :: V) t := rfl
      rw [hstep, ih (n :: V) (rest ++ [path ++ [n]]), hfr, if_neg hn]
      simp

theorem mem_freshOf : ∀ (ns V : List Cell) (x : Cell),
    x ∈ freshOf V ns ↔ x ∈ ns ∧ x ∉ V := by
  intro ns
  induction ns with
  | nil => intro V x; simp [freshOf]
  | cons n t ih =>
    intro V x
    unfold freshOf
    by_cases hn : n ∈ V
    · rw [if_pos hn, ih]
      constructor
      · rintro ⟨h1, h2⟩
        exact ⟨List.mem_cons_of_mem _ h1, h2⟩
      · rintro ⟨h1, h2⟩
        rcases List.mem_cons.mp h1 with rfl | h3
        · exact absurd hn h2
        · exact ⟨h3, h2⟩
    · rw [if_neg hn]
      constructor
      · intro hx
        rcases List.mem_cons.mp hx with rfl | h3
        · exact ⟨List.mem_cons_self _ _, hn⟩
        · obtain ⟨h4, h5⟩ := (ih (n :: V) x).mp h3
          exact ⟨List.mem_cons_of_mem _ h4,
            fun hv => h5 (List.mem_cons_of_mem _ hv)⟩
      · rintro ⟨h1, h2⟩
        rcases List.mem_cons.mp h1 with rfl | h3
        · exact List.mem_cons_self _ _
        · by_cases hxn : x = n
          · cases hxn
            exact List.mem_cons_self _ _
          · refine List.mem_cons_of_mem _ ((ih (n :: V) x).mpr ⟨h3, ?_⟩)
            intro hv
            rcases List.mem_cons.mp hv with he | hv2
            · exact hxn he
            · exact h2 hv2

theorem nodup_freshOf : ∀ (ns V : List Cell), (freshOf V ns).Nodup := by
  intro ns
  induction ns with
  | nil => intro V; simp [freshOf]
  | cons n t ih =>
    intro V
    unfold freshOf
    by_cases hn : n ∈ V
    · rw [if_pos hn]
      exact ih V
    · rw [if_neg hn]
      refine List.Nodup.cons ?_ (ih (n :: V))
      intro hmem
      exact ((mem_freshOf t (n :: V) n).mp hmem).2 (List.mem_cons_self _ _)

/-- The BFS loop invariant over the visited set `V` and the path queue `Q`. -/
structure BfsInv (m : Maze) (V : List Cell) (Q : List (List Cell)) : Prop where
  startV : m.start ∈ V
  vSub : ∀ c ∈ V, c ∈ m.cells
  vNodup : V.Nodup
  qPaths : ∀ p ∈ Q, PathTo m (qEnd p) p
  qEndsV : ∀ p ∈ Q, qEnd p ∈ V
  qEnds : (Q.map qEnd).Nodup
  qSorted : Q.Pairwise (fun p q => p.length ≤ q.length ∧ q.length ≤ p.length + 1)
  qMin : ∀ p ∈ Q, ∀ c q, PathTo m c q → qEnd p = c → p.length ≤ q.length
  levelSome : ∀ hq, Q.head? = some hq → ∀ p c, PathTo m c p →
    p.length ≤ hq.length → c ∈ V
  levelNone : Q = [] → ∀ p c, PathTo m c p → c ∈ V
  processed : ∀ c ∈ V, (∀ q ∈ Q, qEnd q ≠ c) → ∀ n ∈ adjOf m c, n ∈ V
  endQ : m.endCell ∈ V → ∃ q ∈ Q, qEnd q = m.endCell

theorem pairwise_same_len {L : ℕ} :
    ∀ l : List (List Cell), (∀ e ∈ l, e.length = L + 1) →
      l.Pairwise (fun p q => p.length ≤ q.length ∧ q.length ≤ p.length + 1) := by
  intro l
  induction l with
  | nil => intro _; exact List.Pairwise.nil
  | cons a t ih =>
    intro h
    refine List.Pairwise.cons ?_ (ih fun e he => h e (List.mem_cons_of_mem _ he))
    intro b hb
    rw [h a (List.mem_cons_self _ _), h b (List.mem_cons_of_mem _ hb)]
    omega

/-- Dequeuing the front path and enqueuing its unvisited neighbors
preserves the BFS invariant. -/
theorem bfsInv_step {m : Maze} {V path : List Cell}
    {rest : List (List Cell)} (inv : BfsInv m V (path :: rest))
    (hnotend : qEnd path ≠ m.endCell) :
    BfsInv m ((freshOf V (adjOf m (qEnd path))).reverse ++ V)
      (rest ++ (freshOf V (adjOf m (qEnd path))).map (fun n => path ++ [n])) := by
  set cur := qEnd path with hcur
  set fr := freshOf V (adjOf m cur) with hfrdef
  set L := path.length with hL
  have hpcur : PathTo m cur path := inv.qPaths path (List.mem_cons_self _ _)
  have hLpos : 1 ≤ L := by
    rw [hL]
    exact List.length_pos.mpr (pathTo_ne_nil hpcur)
  have hfr : ∀ x, x ∈ fr ↔ x ∈ adjOf m cur ∧ x ∉ V := fun x =>
    mem_freshOf (adjOf m cur) V x
  have hV' : ∀ x, x ∈ fr.reverse ++ V ↔ x ∈ fr ∨ x ∈ V := by
    intro x
    rw [List.mem_append, List.mem_reverse]
  have hqEnd_new : ∀ n : Cell, qEnd (path ++ [n]) = n := by
    intro n
    unfold qEnd
    rw [List.getLastD_eq_getLast?, List.getLast?_concat]
    rfl
  have hnew_len : ∀ e ∈ fr.map (fun n => path ++ [n]), e.length = L + 1 := by
    intro e he
    rcases List.mem_map.mp he with ⟨n, _, rfl⟩
    simp [hL]
  have hLbound : ∀ q ∈ rest, L ≤ q.length ∧ q.length ≤ L + 1 :=
    (List.pairwise_cons.mp inv.qSorted).1
  have hrest_sorted := (List.pairwise_cons.mp inv.qSorted).2
  have hEnds := inv.qEnds
  rw [List.map_cons, List.nodup_cons] at hEnds
  have hnew_paths : ∀ e ∈ fr.map (fun n => path ++ [n]),
      PathTo m (qEnd e) e ∧ qEnd e ∈ fr := by
    intro e he
    rcases List.mem_map.mp he with ⟨n, hn, rfl⟩
    rw [hqEnd_new n]
    exact ⟨pathTo_extend hpcur ((hfr n).mp hn).1, hn⟩
  have hnew_min : ∀ e ∈ fr.map (fun n => path ++ [n]),
      ∀ c q, PathTo m c q → qEnd e = c → e.length ≤ q.length := by
    intro e he c q hq heq
    rcases List.mem_map.mp he with ⟨n, hn, rfl⟩
    rw [hqEnd_new n] at heq
    cases heq
    by_contra hcon
    push_neg at hcon
    have h1 : q.length ≤ L := by
      have := hnew_len _ he
      simp only [List.length_append, List.length_singleton] at hcon ⊢
      omega
    have h2 : c ∈ V := inv.levelSome path rfl q c hq (by omega)
    exact ((hfr c).mp hn).2 h2
  refine ⟨?_, ?_, ?_, ?_, ?_, ?_, ?_, ?_, ?_, ?_, ?_, ?_⟩
  · exact (hV' m.start).mpr (Or.inr inv.startV)
  · intro c hc
    rcases (hV' c).mp hc with hcf | hcv
    · exact (adj_mem ((hfr c).mp hcf).1).2
    · exact inv.vSub c hcv
  · refine List.Nodup.append ((List.nodup_reverse).mpr (nodup_freshOf _ _))
      inv.vNodup ?_
    intro a ha hav
    exact ((hfr a).mp (List.mem_reverse.mp ha)).2 hav
  · intro p hp
    rcases List.mem_append.mp hp with h1 | h2
    · exact inv.qPaths p (List.mem_cons_of_mem _ h1)
    · exact (hnew_paths p h2).1
  · intro p hp
    rcases List.mem_append.mp hp with h1 | h2
    · exact (hV' _).mpr (Or.inr (inv.qEndsV p (List.mem_cons_of_mem _ h1)))
    · exact (hV' _).mpr (Or.inl (hnew_paths p h2).2)
  · rw [List.map_append]
    refine List.Nodup.append (hEnds.2) ?_ ?_
    · have hmm : (fr.map (fun n => path ++ [n])).map qEnd = fr := by
        rw [List.map_map]
        have h9 : fr.map (qEnd ∘ fun n => path ++ [n]) = fr.map id :=
          List.map_congr_left fun n _ => hqEnd_new n
        rw [h9, List.map_id]
      rw [hmm]
      exact nodup_freshOf _ _
    · intro a ha hb
      rcases List.mem_map.mp ha with ⟨q, hq, rfl⟩
      rcases List.mem_map.mp hb with ⟨e, he, heq⟩
      rcases List.mem_map.mp he with ⟨n, hn, rfl⟩
      rw [hqEnd_new n] at heq
      have h1 : qEnd q ∈ V := inv.qEndsV q (List.mem_cons_of_mem _ hq)
      rw [heq] at hn
      exact ((hfr _).mp hn).2 h1
  · rw [List.pairwise_append]
    refine ⟨hrest_sorted, pairwise_same_len _ hnew_len, ?_⟩
    intro q hq e he
    have h1 := hLbound q hq
    have h2 := hnew_len e he
    omega
  · intro p hp
    rcases List.mem_append.mp hp with h1 | h2
    · exact inv.qMin p (List.mem_cons_of_mem _ h1)
    · exact hnew_min p h2
  · intro hq' hhead p c hp hlen
    by_cases hple : p.length ≤ L
    · exact (hV' c).mpr (Or.inr (inv.levelSome path rfl p c hp hple))
    · have hq'mem : hq' ∈ rest ++ fr.map (fun n => path ++ [n]) :=
        List.mem_of_mem_head? hhead
      have hq'len : hq'.length ≤ L + 1 := by
        rcases List.mem_append.mp hq'mem with h1 | h2
        · exact (hLbound hq' h1).2
        · rw [hnew_len hq' h2]
      have hpl : p.length = L + 1 := by omega
      obtain ⟨p0, c0, hpe, hp0, hadj, hlen0⟩ :=
        pathTo_decompose hp (by omega)
      have hc0V : c0 ∈ V := inv.levelSome path rfl p0 c0 hp0 (by omega)
      by_cases hc0cur : c0 = cur
      · rw [hc0cur] at hadj
        by_cases hcV : c ∈ V
        · exact (hV' c).mpr (Or.inr hcV)
        · exact (hV' c).mpr (Or.inl ((hfr c).mpr ⟨hadj, hcV⟩))
      · have hnoq : ∀ q ∈ rest, qEnd q ≠ c0 := by
          intro q hq heq
          have hqlen : q.length ≤ L :=
            le_trans (inv.qMin q (List.mem_cons_of_mem _ hq) c0 p0 hp0 heq)
              (by omega)
          cases hrest : rest with
          | nil => rw [hrest] at hq; exact absurd hq (List.not_mem_nil _)
          | cons r0 rs =>
            have hhead' : hq' = r0 := by
              rw [hrest] at hhead
              exact (Option.some.inj hhead).symm
            have hr0len : r0.length = L + 1 := by
              have h7 := hLbound r0 (by rw [hrest]; exact List.mem_cons_self _ _)
              have h8 : p.length ≤ r0.length := hhead' ▸ hlen
              omega
            rw [hrest] at hq
            rcases List.mem_cons.mp hq with hqe | hqrs
            · rw [hqe] at hqlen
              omega
            · have := (List.pairwise_cons.mp (hrest ▸ hrest_sorted)).1 q hqrs
              omega
        have hproc := inv.processed c0 hc0V ?_ c hadj
        · exact (hV' c).mpr (Or.inr hproc)
        · intro q hq
          rcases List.mem_cons.mp hq with rfl | hqr
          · exact fun he => hc0cur he.symm
          · exact hnoq q hqr
  · intro hQ'
    rcases List.append_eq_nil.mp hQ' with ⟨hrnil, hmnil⟩
    have hfrnil : fr = [] := List.map_eq_nil_iff.mp hmnil
    have hclosed : ∀ c ∈ V, ∀ n ∈ adjOf m c, n ∈ V := by
      intro c hc n hn
      by_cases hccur : c = cur
      · by_contra hnv
        have : n ∈ fr := (hfr n).mpr ⟨hccur ▸ hn, hnv⟩
        rw [hfrnil] at this
        exact List.not_mem_nil _ this
      · refine inv.processed c hc ?_ n hn
        intro q hq
        rcases List.mem_cons.mp hq with rfl | hqr
        · exact fun he => hccur he.symm
        · rw [hrnil] at hqr
          exact absurd hqr (List.not_mem_nil _)
    intro p c hp
    have hcV : c ∈ V := pathTo_closed inv.startV hclosed p.length p c le_rfl hp
    exact (hV' c).mpr (Or.inr hcV)
  · intro c hc hnoq n hn
    rcases (hV' c).mp hc with hcf | hcv
    · exfalso
      refine hnoq (path ++ [c]) ?_ (hqEnd_new c)
      exact List.mem_append_right _ (List.mem_map.mpr ⟨c, hcf, rfl⟩)
    · by_cases hccur : c = cur
      · by_cases hnv : n ∈ V
        · exact (hV' n).mpr (Or.inr hnv)
        · exact (hV' n).mpr (Or.inl ((hfr n).mpr ⟨hccur ▸ hn, hnv⟩))
      · refine (hV' n).mpr (Or.inr (inv.processed c hcv ?_ n hn))
        intro q hq
        rcases List.mem_cons.mp hq with rfl | hqr
        · exact fun he => hccur he.symm
        · exact hnoq q (List.mem_append_left _ hqr)
  · intro hEndV'
    rcases (hV' _).mp hEndV' with hf | hv
    · refine ⟨path ++ [m.endCell], ?_, hqEnd_new _⟩
      exact List.mem_append_right _ (List.mem_map.mpr ⟨_, hf, rfl⟩)
    · obtain ⟨q, hq, hqe⟩ := inv.endQ hv
      rcases List.mem_cons.mp hq with rfl | hqr
      · exact absurd hqe hnotend
      · exact ⟨q, List.mem_append_left _ hqr, hqe⟩

theorem bfsLoop_cons (m : Maze) (f : ℕ) (V path : List Cell)
    (rest : List (List Cell)) :
    bfsLoop m (f + 1) V (path :: rest) =
      if path.getLastD (0, 0) = m.endCell then some (some path)
      else
        bfsLoop m f
          ((adjOf m (path.getLastD (0, 0))).foldl (bfsExpand path) (V, rest)).1
          ((adjOf m (path.getLastD (0, 0))).foldl (bfsExpand path) (V, rest)).2 :=
  rfl

/-- The BFS loop terminates within the fuel and returns a shortest path to
the end when one exists, `none` when none does. -/
theorem bfsLoop_spec (m : Maze) :
    ∀ fuel V Q, BfsInv m V Q →
      m.cells.length + 1 + Q.length < fuel + V.length →
      ∃ res, bfsLoop m fuel V Q = some res ∧
        (∀ p, res = some p → PathTo m m.endCell p ∧
          ∀ q, PathTo m m.endCell q → p.length ≤ q.length) ∧
        (res = none → ¬ ∃ q, PathTo m m.endCell q) := by
  intro fuel
  induction fuel with
  | zero =>
    intro V Q inv hmeas
    have := nodup_sub_length inv.vNodup inv.vSub
    omega
  | succ f ih =>
    intro V Q inv hmeas
    cases Q with
    | nil =>
      refine ⟨none, rfl, ?_, ?_⟩
      · intro p hp
        exact absurd hp (by simp)
      · rintro _ ⟨q, hq⟩
        have hEndV := inv.levelNone rfl q m.endCell hq
        obtain ⟨q', hq', _⟩ := inv.endQ hEndV
        exact absurd hq' (List.not_mem_nil _)
    | cons path rest =>
      by_cases hend : path.getLastD (0, 0) = m.endCell
      · refine ⟨some path, by rw [bfsLoop_cons, if_pos hend], ?_, ?_⟩
        · intro p hp
          cases hp
          have h1 := inv.qPaths path (List.mem_cons_self _ _)
          have h2 : qEnd path = m.endCell := hend
          rw [h2] at h1
          exact ⟨h1, fun q hq =>
            inv.qMin path (List.mem_cons_self _ _) m.endCell q hq h2⟩
        · intro hp
          exact absurd hp (by simp)
      · have hinv' := bfsInv_step inv hend
        have hfold := bfsExpand_fold path (adjOf m (qEnd path)) V rest
        have hmeas' : m.cells.length + 1 +
            (rest ++ (freshOf V (adjOf m (qEnd path))).map
              (fun n => path ++ [n])).length <
            f + ((freshOf V (adjOf m (qEnd path))).reverse ++ V).length := by
          simp only [List.length_append, List.length_map, List.length_reverse,
            List.length_cons] at hmeas ⊢
          omega
        obtain ⟨res, hrun, hfwd, hbwd⟩ := ih _ _ hinv' hmeas'
        refine ⟨res, ?_, hfwd, hbwd⟩
        rw [bfsLoop_cons, if_neg hend]
        have hqe : path.getLastD (0, 0) = qEnd path := rfl
        rw [hqe, hfold]
        exact hrun

theorem bfsInv_init (m : Maze) (hs : m.start ∈ m.cells) :
    BfsInv m [m.start] [[m.start]] := by
  have hq1 : qEnd [m.start] = m.start := rfl
  have hp1 : PathTo m m.start [m.start] := pathTo_one m
  refine ⟨List.mem_singleton.mpr rfl, ?_, List.nodup_singleton _,
    ?_, ?_, ?_, ?_, ?_, ?_, ?_, ?_, ?_⟩
  · intro c hc
    rw [List.mem_singleton.mp hc]
    exact hs
  · intro p hp
    rw [List.mem_singleton.mp hp, hq1]
    exact hp1
  · intro p hp
    rw [List.mem_singleton.mp hp, hq1]
    exact List.mem_singleton.mpr rfl
  · simp
  · simp
  · intro p hp c q hq heq
    have h1 : 1 ≤ q.length := List.length_pos.mpr (pathTo_ne_nil hq)
    rw [List.mem_singleton.mp hp]
    simpa using h1
  · intro hq hhead p c hp hlen
    have hq0 : hq = [m.start] := (Option.some.inj hhead).symm
    rw [hq0] at hlen
    simp at hlen
    have h1 : 1 ≤ p.length := List.length_pos.mpr (pathTo_ne_nil hp)
    obtain ⟨rfl, _⟩ := pathTo_len_one hp (by omega)
    exact List.mem_singleton.mpr rfl
  · intro he
    exact absurd he (by simp)
  · intro c hc hnoq n hn
    exfalso
    refine hnoq [m.start] (List.mem_singleton.mpr rfl) ?_
    rw [hq1, List.mem_singleton.mp hc]
  · intro he
    exact ⟨[m.start], List.mem_singleton.mpr rfl,
      by rw [hq1, List.mem_singleton.mp he]⟩

/-- The full solver specification: with `start` and `end` present, a
reachable end yields `solved: true` with a minimum-cell-count path whose
`length` counts its cells; an unreachable end yields the no-path record. -/
theorem solveMaze_spec (m : Maze) (hs : m.start ∈ m.cells)
    (he : m.endCell ∈ m.cells) :
    ((∃ p, PathTo m m.endCell p) →
      ∃ p, solveMaze m =
          { solved := some true, path := some p, length := some p.length
            error := none } ∧
        PathTo m m.endCell p ∧
        ∀ q, PathTo m m.endCell q → p.length ≤ q.length) ∧
    ((¬ ∃ p, PathTo m m.endCell p) →
      solveMaze m =
        { solved := some false, path := some [], length := some 0
          error := some "No path from start to end" }) := by
  obtain ⟨res, hrun, hfwd, hbwd⟩ := bfsLoop_spec m (m.cells.length + 2)
    [m.start] [[m.start]] (bfsInv_init m hs) (by simp)
  have hsolve0 : solveMaze m =
      match bfsLoop m (m.cells.length + 2) [m.start] [[m.start]] with
      | some (some p) => { path := some p, length := some p.length
                           solved := some true }
      | some none => { path := some [], length := some 0
                       solved := some false
                       error := some "No path from start to end" }
      | none => {} := by
    unfold solveMaze
    rw [if_neg (fun hc => hc hs), if_neg (fun hc => hc he)]
  cases res with
  | none =>
    have hsolve : solveMaze m =
        { solved := some false, path := some [], length := some 0
          error := some "No path from start to end" } := by
      rw [hsolve0, hrun]
    constructor
    · intro hex
      exact absurd hex (hbwd rfl)
    · intro _
      exact hsolve
  | some p =>
    have hsolve : solveMaze m =
        { solved := some true, path := some p, length := some p.length
          error := none } := by
      rw [hsolve0, hrun]
    obtain ⟨h1, h2⟩ := hfwd p rfl
    constructor
    · intro _
      exact ⟨p, hsolve, h1, h2⟩
    · intro hnex
      exact absurd ⟨p, h1⟩ hnex

/-! ## Result-shape and frame lemmas -/

theorem solveMaze_missing_start {m : Maze} (h : m.start ∉ m.cells) :
    solveMaze m = { error := some "Start cell not found in maze" } := by
  unfold solveMaze
  rw [if_pos h]

theorem solveMaze_missing_end {m : Maze} (hs : m.start ∈ m.cells)
    (h : m.endCell ∉ m.cells) :
    solveMaze m = { error := some "End cell not found in maze" } := by
  unfold solveMaze
  rw [if_neg (fun hc => hc hs), if_pos h]

theorem solveMaze_fields_present {m : Maze} (hs : m.start ∈ m.cells)
    (he : m.endCell ∈ m.cells) :
    (solveMaze m).solved.isSome ∧ (solveMaze m).path.isSome ∧
      (solveMaze m).length.isSome := by
  rcases Classical.em (∃ p, PathTo m m.endCell p) with hex | hnex
  · obtain ⟨p, hp, _, _⟩ := (solveMaze_spec m hs he).1 hex
    rw [hp]
    exact ⟨rfl, rfl, rfl⟩
  · rw [(solveMaze_spec m hs he).2 hnex]
    exact ⟨rfl, rfl, rfl⟩

/-- The caller's `initialMaze` object is reported back untouched: the deep
copy is what the loop mutates. -/
theorem generateRandomMaze_caller (o : GenOptions) (amb : ℕ → ℕ) (i0 : ℕ) :
    (generateRandomMaze o amb i0).callerMaze = o.initialMaze := by
  unfold generateRandomMaze
  simp only []
  generalize genLoop amb o.maxIterations _ _ = res
  cases res with
  | none => rfl
  | some p =>
    obtain ⟨st, tr⟩ := p
    rfl

/-! ## Optimizer lemmas -/

theorem optInner_eq_none {amb : ℕ → ℕ} {w h i : ℕ} {s : OptState}
    (hrun : (generateRandomMaze
        { width := w, height := h
          seedPacket := s.seedPacket.set i (s.seedPacket.getD i 0 + 1) }
      amb s.ambIdx).run = none) :
    optInner amb w h i s =
      { s with seedPacket := s.seedPacket.set i (s.seedPacket.getD i 0 + 1) } := by
  unfold optInner
  simp only [hrun]

theorem optInner_eq_some {amb : ℕ → ℕ} {w h i : ℕ} {s : OptState}
    {r : GenRun}
    (hrun : (generateRandomMaze
        { width := w, height := h
          seedPacket := s.seedPacket.set i (s.seedPacket.getD i 0 + 1) }
      amb s.ambIdx).run = some r) :
    optInner amb w h i s =
      if (solveMaze r.maze).solved = some true ∧
          s.bestLength < (solveMaze r.maze).length.getD 0 then
        { seedPacket := s.seedPacket.set i (s.seedPacket.getD i 0 + 1)
          bestSeedPacket := s.seedPacket.set i (s.seedPacket.getD i 0 + 1)
          bestLength := (solveMaze r.maze).length.getD 0
          bestMaze := some (deepCopy r.maze)
          ambIdx := r.ambFinal }
      else
        { seedPacket := s.seedPacket.set i (s.seedPacket.getD i 0 + 1)
          bestSeedPacket := s.bestSeedPacket
          bestLength := s.bestLength
          bestMaze := s.bestMaze
          ambIdx := r.ambFinal } := by
  unfold optInner
  simp only [hrun]

theorem optInner_best_le (amb : ℕ → ℕ) (w h i : ℕ) (s : OptState) :
    s.bestLength ≤ (optInner amb w h i s).bestLength := by
  cases hrun : (generateRandomMaze
      { width := w, height := h
        seedPacket := s.seedPacket.set i (s.seedPacket.getD i 0 + 1) }
      amb s.ambIdx).run with
  | none => rw [optInner_eq_none hrun]
  | some r =>
    rw [optInner_eq_some hrun]
    by_cases hc : (solveMaze r.maze).solved = some true ∧
        s.bestLength < (solveMaze r.maze).length.getD 0
    · rw [if_pos hc]
      exact le_of_lt hc.2
    · rw [if_neg hc]

theorem foldl_best_le {α : Type} (f : OptState → α → OptState)
    (hf : ∀ s x, s.bestLength ≤ (f s x).bestLength) :
    ∀ (l : List α) (s0 : OptState),
      s0.bestLength ≤ (l.foldl f s0).bestLength := by
  intro l
  induction l with
  | nil => intro s0; exact le_rfl
  | cons x t ih => intro s0; exact le_trans (hf s0 x) (ih (f s0 x))

theorem optSweep_best_le (amb : ℕ → ℕ) (w h iters : ℕ)
    (anchorIdxs : List ℕ) (s0 : OptState) :
    s0.bestLength ≤ (optSweep amb w h iters anchorIdxs s0).bestLength := by
  unfold optSweep
  refine foldl_best_le _ ?_ anchorIdxs s0
  intro s i
  exact foldl_best_le _ (fun s2 _ => optInner_best_le amb w h i s2) _ s

/-- Everything the reproducibility argument needs to carry through the
sweep. -/
def ReproProp (w h : ℕ) (s : OptState) : Prop :=
  s.seedPacket.length = w * h ∧ s.bestSeedPacket.length = w * h ∧
  ∀ mz, s.bestMaze = some mz → ∀ (amb2 : ℕ → ℕ) (i2 : ℕ),
    ∃ r, (generateRandomMaze
        { width := w, height := h, seedPacket := s.bestSeedPacket }
      amb2 i2).run = some r ∧ r.maze = mz

theorem optInner_repro {w h : ℕ} (hw : 1 ≤ w) (hh : 1 ≤ h)
    (amb : ℕ → ℕ) (i : ℕ) {s : OptState} (hs : ReproProp w h s) :
    ReproProp w h (optInner amb w h i s) := by
  obtain ⟨hlen, hblen, hrep⟩ := hs
  have hplen : (s.seedPacket.set i (s.seedPacket.getD i 0 + 1)).length =
      w * h := by rw [List.length_set]; exact hlen
  cases hrun : (generateRandomMaze
      { width := w, height := h
        seedPacket := s.seedPacket.set i (s.seedPacket.getD i 0 + 1) }
      amb s.ambIdx).run with
  | none =>
    rw [optInner_eq_none hrun]
    exact ⟨hplen, hblen, hrep⟩
  | some r =>
    rw [optInner_eq_some hrun]
    by_cases hc : (solveMaze r.maze).solved = some true ∧
        s.bestLength < (solveMaze r.maze).length.getD 0
    · rw [if_pos hc]
      refine ⟨hplen, hplen, ?_⟩
      intro mz hmz amb2 i2
      have hmzr : mz = r.maze := (Option.some.inj hmz).symm
      obtain ⟨r1, r2, hr1, hr2, hm, _, _, _⟩ := generate_fresh_det w h hw hh
        (s.seedPacket.set i (s.seedPacket.getD i 0 + 1))
        (by omega) amb amb2 s.ambIdx i2
      have hrr1 : r1 = r := Option.some.inj (hr1.symm.trans hrun)
      exact ⟨r2, hr2, by rw [← hm, hrr1, hmzr]⟩
    · rw [if_neg hc]
      exact ⟨hplen, hblen, hrep⟩

theorem optSweep_repro {w h : ℕ} (hw : 1 ≤ w) (hh : 1 ≤ h)
    (amb : ℕ → ℕ) (iters : ℕ) (anchorIdxs : List ℕ) {s0 : OptState}
    (hs : ReproProp w h s0) :
    ReproProp w h (optSweep amb w h iters anchorIdxs s0) := by
  unfold optSweep
  induction anchorIdxs generalizing s0 with
  | nil => exact hs
  | cons i t ih =>
    refine ih ?_
    have hinner : ∀ (l : List ℕ) (s : OptState), ReproProp w h s →
        ReproProp w h (l.foldl (fun s2 _ => optInner amb w h i s2) s) := by
      intro l
      induction l with
      | nil => intro s hsp; exact hsp
      | cons x t2 ih2 =>
        intro s hsp
        exact ih2 _ (optInner_repro hw hh amb i hsp)
    exact hinner (List.range iters) s0 hs

/-- The optimizer's initial state satisfies the reproducibility invariant:
the packet has `width * height` entries and no best maze is recorded yet. -/
theorem optInit_repro (w h : ℕ) (o : OptOptions) (amb : ℕ → ℕ) (i0 : ℕ)
    (hwo : o.width = w) (hho : o.height = h) :
    ReproProp w h (optInit o amb i0) := by
  refine ⟨?_, ?_, ?_⟩
  · show ((List.range (o.width * o.height)).map _).length = w * h
    rw [List.length_map, List.length_range, hwo, hho]
  · show ((List.range (o.width * o.height)).map _).length = w * h
    rw [List.length_map, List.length_range, hwo, hho]
  · intro mz hmz
    exact absurd hmz (by simp [optInit])

/-- Any `some` result of the optimizer is the read-out of a full sweep from
the initial state over some anchor list. -/
theorem generateLongMaze_some {o : OptOptions} {amb : ℕ → ℕ} {i0 : ℕ}
    {res : OptResult} (h : generateLongMaze o amb i0 = some res) :
    ∃ idxs : List ℕ,
      res.maze = (optSweep amb o.width o.height o.iterations idxs
          (optInit o amb i0)).bestMaze ∧
      res.length = (optSweep amb o.width o.height o.iterations idxs
          (optInit o amb i0)).bestLength ∧
      res.seedPacket = (optSweep amb o.width o.height o.iterations idxs
          (optInit o amb i0)).bestSeedPacket := by
  unfold generateLongMaze at h
  simp only [] at h
  by_cases hd : o.divisions = 0
  · rw [if_pos hd] at h
    simp only [] at h
    refine ⟨if o.width * o.height = 0 then [] else [0], ?_⟩
    have := Option.some.inj h
    rw [← this]
    exact ⟨rfl, rfl, rfl⟩
  · rw [if_neg hd] at h
    by_cases hz : o.width * o.height ≠ 0 ∧ jsRound (o.width * o.height) o.divisions = 0
    · rw [if_pos hz] at h
      exact absurd h (by simp)
    · rw [if_neg hz] at h
      simp only [] at h
      refine ⟨anchorList (o.width * o.height)
        (jsRound (o.width * o.height) o.divisions), ?_⟩
      have := Option.some.inj h
      rw [← this]
      exact ⟨rfl, rfl, rfl⟩

/-! ## The spec's claims -/

/-- A fixed ambient stream for concrete instantiations: every read is 0. -/
def amb0 : ℕ → ℕ := fun _ => 0

/-- A second fixed ambient stream: every read is 1. -/
def ambOne : ℕ → ℕ := fun _ => 1

/-- The 1×2 maze with its single link, used for concrete instantiations. -/
def maze12 : Maze :=
  { width := 1, height := 2, cells := [(0, 0), (0, 1)]
    links := [((0, 0), (0, 1))], start := (0, 0), endCell := (0, 1) }

/-- C1: for every `width ≥ 1` and `height ≥ 1`, `generateRandomMaze`
started from an empty (fresh) maze with unbounded `maxIterations`
terminates with a run reported complete, and the resulting maze has
exactly one connected group and exactly `width * height - 1` links (a
spanning tree), with the final boundary count zero. -/
theorem claim_C1 (w h : ℕ) (hw : 1 ≤ w) (hh : 1 ≤ h)
    (P : List ℕ) (amb : ℕ → ℕ) (i0 : ℕ) :
    ∃ r, (generateRandomMaze { width := w, height := h, seedPacket := P }
        amb i0).run = some r ∧
      r.completed = true ∧
      (analyzeMaze r.maze).groups.length = 1 ∧
      r.maze.links.length = w * h - 1 ∧
      (analyzeMaze r.maze).boundaries.length = 0 := by
  obtain ⟨r, hr, hb, hg, hl, hc, _, _⟩ := generate_fresh_run w h hw hh P amb i0
  exact ⟨r, hr, hc, hg, hl, by rw [hb]; rfl⟩

/-- C1 witness: the 2×2 run with an empty packet. -/
theorem claim_C1_witness :
    ∃ r, (generateRandomMaze { width := 2, height := 2, seedPacket := [] }
        amb0 0).run = some r ∧
      r.completed = true ∧
      (analyzeMaze r.maze).groups.length = 1 ∧
      r.maze.links.length = 2 * 2 - 1 ∧
      (analyzeMaze r.maze).boundaries.length = 0 :=
  claim_C1 2 2 (by decide) (by decide) [] amb0 0

/-- C2: on a maze whose start and end cells are present, `solveMaze`
returns `{solved := true, path, length := path.length}` with `path` a
link-adjacent path from start to end of minimum cell count (equivalently
minimum edge count, each path having one more cell than edges), and
returns `{solved := false, path := [], length := 0, error}` when the end
is unreachable — in particular when the end is a valid but isolated
cell. -/
theorem claim_C2 (m : Maze) (hs : m.start ∈ m.cells)
    (he : m.endCell ∈ m.cells) :
    ((∃ p, PathTo m m.endCell p) →
      ∃ p, solveMaze m =
          { solved := some true, path := some p, length := some p.length
            error := none } ∧
        PathTo m m.endCell p ∧
        ∀ q, PathTo m m.endCell q → p.length ≤ q.length) ∧
    ((¬ ∃ p, PathTo m m.endCell p) →
      solveMaze m =
        { solved := some false, path := some [], length := some 0
          error := some "No path from start to end" }) :=
  solveMaze_spec m hs he

/-- C2 witness: the 1×2 maze, solved along its single link. -/
theorem claim_C2_witness :
    ∃ p, solveMaze maze12 =
        { solved := some true, path := some p, length := some p.length
          error := none } ∧
      PathTo maze12 maze12.endCell p ∧
      ∀ q, PathTo maze12 maze12.endCell q → p.length ≤ q.length :=
  (claim_C2 maze12 (by decide) (by decide)).1
    ⟨[(0, 0), (0, 1)], rfl, rfl, List.chain'_pair.mpr (by decide)⟩

/-- C3: two-run determinism — two calls of `generateRandomMaze` with the
same dimensions and the same seed packet of length at least the number of
generation steps (`width * height - 1`) produce identical mazes, whatever
the two ambient random streams and cursors are. -/
theorem claim_C3 (w h : ℕ) (hw : 1 ≤ w) (hh : 1 ≤ h)
    (P : List ℕ) (hP : w * h - 1 ≤ P.length)
    (ambA ambB : ℕ → ℕ) (i1 i2 : ℕ) :
    ∃ r1 r2,
      (generateRandomMaze { width := w, height := h, seedPacket := P }
        ambA i1).run = some r1 ∧
      (generateRandomMaze { width := w, height := h, seedPacket := P }
        ambB i2).run = some r2 ∧
      r1.maze = r2.maze := by
  obtain ⟨r1, r2, h1, h2, hm, _, _, _⟩ :=
    generate_fresh_det w h hw hh P hP ambA ambB i1 i2
  exact ⟨r1, r2, h1, h2, hm⟩

/-- C3 witness: 1×2 with packet `[5]` under two different ambient
streams and cursors. -/
theorem claim_C3_witness :
    ∃ r1 r2,
      (generateRandomMaze { width := 1, height := 2, seedPacket := [5] }
        amb0 0).run = some r1 ∧
      (generateRandomMaze { width := 1, height := 2, seedPacket := [5] }
        ambOne 7).run = some r2 ∧
      r1.maze = r2.maze :=
  claim_C3 1 2 (by decide) (by decide) [5] (by decide) amb0 ambOne 0 7

/-- C4 counterexample: the 1×3 run with the one-element packet `[7]` runs
two iterations; at the second the packet is already exhausted, yet the
active source is still the seeded instance (advanced to state
`1831565820`), not the ambient source the claim announces. -/
theorem claim_C4_counterexample :
    ((generateRandomMaze { width := 1, height := 3, seedPacket := [7] }
        amb0 0).run.map fun r =>
      (r.trace.length, (r.trace.getD 1 (none, Rng.ambient)).2)) =
    some (2, Rng.seeded ⟨1831565820⟩) := by
  decide

/-- C4 amended: at each iteration where the seed packet is non-empty the
generator pops its last element and installs a fresh PRNG seeded from it;
but once the packet is exhausted the active source never reverts to the
ambient source — it stays the last seeded instance, advancing in place.
The ambient source serves only runs whose packet was empty from the
start. -/
theorem claim_C4 (w h : ℕ) (P : List ℕ) (mi : Option ℕ)
    (amb : ℕ → ℕ) (i0 : ℕ) (r : GenRun)
    (hr : (generateRandomMaze
        { width := w, height := h, seedPacket := P, maxIterations := mi }
      amb i0).run = some r) :
    (∀ i, i < r.trace.length → i < P.length →
      (r.trace.getD i (none, Rng.ambient)).1 =
          some (P.getD (P.length - 1 - i) 0) ∧
      (r.trace.getD i (none, Rng.ambient)).2 =
          Rng.seeded (Random.init (P.getD (P.length - 1 - i) 0))) ∧
    (P ≠ [] → ∀ i, i < r.trace.length →
      (r.trace.getD i (none, Rng.ambient)).2 ≠ Rng.ambient) ∧
    (P = [] → ∀ i, i < r.trace.length →
      (r.trace.getD i (none, Rng.ambient)).2 = Rng.ambient) := by
  revert hr
  unfold generateRandomMaze
  simp only []
  cases hsub : genLoop amb mi ((freshMaze w h).cells.length + 1)
      { maze := freshMaze w h, seedQueue := P, rng := .ambient
        ambIdx := i0, iterations := 0 } with
  | none => intro hr; exact absurd hr (by simp)
  | some p =>
    obtain ⟨stF, tr⟩ := p
    intro hr
    have htr : r.trace = tr := by rw [← Option.some.inj hr]
    rw [htr]
    refine ⟨fun i hi hiP => ⟨?_, ?_⟩, fun hne i hi => ?_, fun hnil i hi => ?_⟩
    · rw [genLoop_trace_pop amb mi _ _ _ _ hsub i hi]
      exact if_pos hiP
    · exact genLoop_trace_fresh amb mi _ _ _ _ hsub i hi hiP
    · exact genLoop_trace_seeded amb mi _ _ _ _ hsub (Or.inl hne) i hi
    · exact genLoop_trace_ambient amb mi _ _ _ _ hsub hnil rfl i hi

/-- C4 witness: the non-empty-packet clause at the 1×3 run with
packet `[7]`. -/
theorem claim_C4_witness :
    ∃ r, (generateRandomMaze { width := 1, height := 3, seedPacket := [7] }
        amb0 0).run = some r ∧
      (([7] : List ℕ) ≠ [] → ∀ i, i < r.trace.length →
        (r.trace.getD i (none, Rng.ambient)).2 ≠ Rng.ambient) :=
  ⟨_, rfl, (claim_C4 1 3 [7] none amb0 0 _ rfl).2.1⟩

/-- C5: the generator consumes its seed packet from the tail: the entry
popped at iteration `i` is packet index `length - 1 - i`, so index
`length - 1` governs the first generation step and index `0` the last;
iterations past the packet's length pop nothing. -/
theorem claim_C5 (w h : ℕ) (P : List ℕ) (mi : Option ℕ)
    (amb : ℕ → ℕ) (i0 : ℕ) (r : GenRun)
    (hr : (generateRandomMaze
        { width := w, height := h, seedPacket := P, maxIterations := mi }
      amb i0).run = some r) :
    ∀ i, i < r.trace.length →
      (r.trace.getD i (none, Rng.ambient)).1 =
        if i < P.length then some (P.getD (P.length - 1 - i) 0)
        else none := by
  revert hr
  unfold generateRandomMaze
  simp only []
  cases hsub : genLoop amb mi ((freshMaze w h).cells.length + 1)
      { maze := freshMaze w h, seedQueue := P, rng := .ambient
        ambIdx := i0, iterations := 0 } with
  | none => intro hr; exact absurd hr (by simp)
  | some p =>
    obtain ⟨stF, tr⟩ := p
    intro hr
    have htr : r.trace = tr := by rw [← Option.some.inj hr]
    rw [htr]
    intro i hi
    exact genLoop_trace_pop amb mi _ _ _ _ hsub i hi

/-- C5 witness: the 1×3 run with packet `[7, 9]` — `9` (index 1, the
tail) governs the first step, `7` (index 0) the second. -/
theorem claim_C5_witness :
    ∃ r, (generateRandomMaze { width := 1, height := 3, seedPacket := [7, 9] }
        amb0 0).run = some r ∧
      ∀ i, i < r.trace.length →
        (r.trace.getD i (none, Rng.ambient)).1 =
          if i < ([7, 9] : List ℕ).length
          then some (([7, 9] : List ℕ).getD (([7, 9] : List ℕ).length - 1 - i) 0)
          else none :=
  ⟨_, rfl, claim_C5 1 3 [7, 9] none amb0 0 _ rfl⟩

/-- C6: the seeded PRNG is bit-exact mulberry32.  Call `n` (0-based) on a
fresh instance returns the `mulberryOut` mix of the 32-bit-wrapping state
recurrence `s ← (s + 0x6D2B79F5) mod 2^32` iterated `n + 1` times from
the low 32 bits of the seed (all intermediate products and sums wrap mod
`2^32` inside `mulberryOut`); every output numerator is below `2^32`, so
the returned float `num / 2^32` lies in `[0, 1)`; and two instances whose
seeds agree in their low 32 bits (`seed | 0`) return identical outputs on
every call. -/
theorem claim_C6 (seed seed2 n : ℕ) :
    (Random.init seed).nthOut n = mulberryOut (mulberryState seed (n + 1)) ∧
    (Random.init seed).nthOut n < 2 ^ 32 ∧
    (seed2 % 2 ^ 32 = seed % 2 ^ 32 →
      (Random.init seed2).nthOut n = (Random.init seed).nthOut n) := by
  refine ⟨Random.nthOut_eq_mulberry seed n, ?_, ?_⟩
  · rw [Random.nthOut_eq_mulberry]
    exact mulberryOut_lt _
  · intro hmod
    have hinit : Random.init seed2 = Random.init seed := by
      unfold Random.init
      rw [hmod]
    rw [hinit]

/-- C7: across the optimizer's full anchor/iteration sweep the recorded
best length is non-decreasing (one inner step updates it only on a
strictly longer solved run), and regenerating with the returned
`seedPacket` and the same dimensions reproduces the returned best maze
exactly, whatever ambient stream the regeneration sees. -/
theorem claim_C7 (o : OptOptions) (hw : 1 ≤ o.width) (hh : 1 ≤ o.height)
    (amb : ℕ → ℕ) (i0 : ℕ) :
    (∀ i s, s.bestLength ≤ (optInner amb o.width o.height i s).bestLength) ∧
    (∀ idxs s0, s0.bestLength ≤
      (optSweep amb o.width o.height o.iterations idxs s0).bestLength) ∧
    (∀ res mz, generateLongMaze o amb i0 = some res → res.maze = some mz →
      ∀ (amb2 : ℕ → ℕ) (i2 : ℕ), ∃ r,
        (generateRandomMaze
            { width := o.width, height := o.height
              seedPacket := res.seedPacket } amb2 i2).run = some r ∧
        r.maze = mz) := by
  refine ⟨fun i s => optInner_best_le amb o.width o.height i s,
    fun idxs s0 => optSweep_best_le amb o.width o.height o.iterations idxs s0,
    ?_⟩
  intro res mz hres hmz amb2 i2
  obtain ⟨idxs, hm, _, hp⟩ := generateLongMaze_some hres
  obtain ⟨_, _, hrep⟩ := optSweep_repro hw hh amb o.iterations idxs
    (optInit_repro o.width o.height o amb i0 rfl rfl)
  rw [hm] at hmz
  rw [hp]
  exact hrep mz hmz amb2 i2

/-- C7 witness: the 1×2 optimizer run with one anchor and one iteration
returns packet `[1, 0]` and the 1×2 maze, and regeneration from `[1, 0]`
reproduces that maze. -/
theorem claim_C7_witness :
    ∃ r, (generateRandomMaze { width := 1, height := 2, seedPacket := [1, 0] }
        amb0 0).run = some r ∧
      r.maze = maze12 :=
  (claim_C7 { width := 1, height := 2, iterations := 1, divisions := 1 }
      (by decide) (by decide) amb0 0).2.2
    { maze := some maze12, length := 2, seedPacket := [1, 0] } maze12
    (by decide) rfl amb0 0

/-- C8 counterexample: on a maze whose start is missing from `cells`,
`solveMaze` returns a record carrying only the `error` field; the
claimed always-present `solved`, `path` and `length` fields are
absent. -/
theorem claim_C8_counterexample :
    solveMaze { width := 1, height := 1, cells := [(5, 5)], links := []
                start := (0, 0), endCell := (5, 5) } =
      { solved := none, path := none, length := none
        error := some "Start cell not found in maze" } := by
  decide

/-- C8 amended: `solveMaze` never fails fatally and always returns a
result record, and a missing start or end is reported as a recoverable
error result; but that record carries only the `error` field — `solved`,
`path` and `length` are absent there, present exactly when both
endpoints exist. -/
theorem claim_C8 (m : Maze) :
    (m.start ∉ m.cells →
      solveMaze m = { error := some "Start cell not found in maze" }) ∧
    (m.start ∈ m.cells → m.endCell ∉ m.cells →
      solveMaze m = { error := some "End cell not found in maze" }) ∧
    (m.start ∈ m.cells → m.endCell ∈ m.cells →
      (solveMaze m).solved.isSome ∧ (solveMaze m).path.isSome ∧
        (solveMaze m).length.isSome) :=
  ⟨fun h => solveMaze_missing_start h,
   fun hs h => solveMaze_missing_end hs h,
   fun hs he => solveMaze_fields_present hs he⟩

/-- C9: the degenerate-division boundary is not handled: with
`width = height = 2` and the default `divisions = 10`, the step
`Math.round(4 / 10)` is `0`, so the JS anchor loop
`for (i = 0; i < 4; i += step)` never advances `i` and
`generateLongMaze` does not terminate — the model reports the divergence
as `none` instead of the claimed terminating run with step at least 1. -/
theorem claim_C9 (amb : ℕ → ℕ) (i0 : ℕ) :
    jsRound (2 * 2) 10 = 0 ∧
      generateLongMaze { width := 2, height := 2 } amb i0 = none :=
  ⟨rfl, rfl⟩

/-- C10: frame property — the caller's `initialMaze` object is never
mutated: the generator deep-copies it and the loop mutates only the
copy, so after the call the caller's object is exactly the maze passed
in, every field intact. -/
theorem claim_C10 (o : GenOptions) (amb : ℕ → ℕ) (i0 : ℕ) (mz : Maze)
    (h : o.initialMaze = some mz) :
    (generateRandomMaze o amb i0).callerMaze = some mz := by
  rw [generateRandomMaze_caller, h]

/-- C10 witness: a concrete caller maze passed as `initialMaze` comes
back untouched. -/
theorem claim_C10_witness :
    (generateRandomMaze { width := 1, height := 2, initialMaze := some maze12 }
        amb0 0).callerMaze = some maze12 :=
  claim_C10 { width := 1, height := 2, initialMaze := some maze12 }
    amb0 0 maze12 rfl

end MazeGen
